import Mathlib
set_option maxRecDepth 1000000

/-!
Verification of the BiAn-style smart-contract obfuscator against its
natural-language specification.  The Python sources are shallowly embedded:
pure text-producing functions become Lean functions on `String`/`List Char`
(bytes are modelled as characters; all inputs considered are ASCII, where
byte offsets and character offsets coincide), stateful scans become explicit
folds, and the randomized choices (strategy, variant, generated names,
presentation order) become explicit parameters that theorems quantify over.
-/
/-! ## Generic helpers -/
/-- Stable insertion of `x` into a list sorted descending by `key`
(mirrors Python `sorted(..., key=key, reverse=True)`, which is stable). -/
def insertDescBy (key : α → Nat) (x : α) : List α → List α
  | [] => [x]
  | y :: rest => if key y < key x then x :: y :: rest else y :: insertDescBy key x rest

/-- Stable sort, descending by `key` (model of `sorted(..., reverse=True)`). -/
def sortDescBy (key : α → Nat) : List α → List α
  | [] => []
  | x :: rest => insertDescBy key x (sortDescBy key rest)

/-- Concatenate a list of strings (Python `"".join`). -/
def joinCat : List String → String
  | [] => ""
  | s :: rest => s ++ joinCat rest

/-- Join a list of strings with the separator `"\n"` (Python `"\n".join`). -/
def joinNL : List String → String
  | [] => ""
  | [s] => s
  | s :: rest => s ++ "\n" ++ joinNL rest

/-- Python whitespace (`str.strip`, ASCII range). -/
def isPyWS (c : Char) : Bool :=
  c == ' ' || c == '\t' || c == '\n' || c == '\r' || c == '\x0b' || c == '\x0c'

def trimChars (l : List Char) : List Char :=
  ((l.dropWhile isPyWS).reverse.dropWhile isPyWS).reverse

/-- Python `str.strip()` (kernel-computable model of `String.trim`). -/
def pyTrim (s : String) : String := String.mk (trimChars s.toList)

/-- Python `str.startswith`. -/
def pyStartsWith (s pre : String) : Bool := s.toList.take pre.toList.length == pre.toList

/-- Python `str.endswith`. -/
def pyEndsWith (s suf : String) : Bool :=
  s.toList.reverse.take suf.toList.length == suf.toList.reverse

/-- Python `s[k:]`. -/
def pyDrop (s : String) (k : Nat) : String := String.mk (s.toList.drop k)

/-- Python `s[:-k]` (`k ≤ len`). -/
def pyDropRight (s : String) (k : Nat) : String :=
  String.mk (s.toList.take (s.toList.length - k))

def splitOnChar (sep : Char) : List Char → List (List Char)
  | [] => [[]]
  | c :: rest =>
    if c == sep then [] :: splitOnChar sep rest
    else
      match splitOnChar sep rest with
      | h :: t => (c :: h) :: t
      | [] => [[c]]

/-- Python `text.split('\n')`. -/
def pySplitLinesNL (s : String) : List String := (splitOnChar '\n' s.toList).map String.mk

/-! ## Keccak-256 (the externally defined hash the generated Solidity calls).

The generated helper functions call `keccak256(abi.encodePacked(val))`.  To
evaluate the generated code's arithmetic on concrete seeds we embed the
standard Keccak-f[1600] permutation and the Ethereum Keccak-256 sponge, for
single-block (≤ 135 byte) messages.  Lanes are 64-bit words modelled as
`Nat` masked to 64 bits. -/
def lmask64 : Nat := 2 ^ 64 - 1

def rol64 (x s : Nat) : Nat :=
  ((x <<< s) ||| (x >>> (64 - s))) &&& lmask64

/-- Keccak rho rotation offsets, indexed by `x + 5 * y`. -/
def keccakRot : List Nat :=
  [[0, 1, 62, 28, 27], [36, 44, 6, 55, 20], [3, 10, 43, 25, 39],
   [41, 45, 15, 21, 8], [18, 2, 61, 56, 14]].flatten

/-- Keccak round constants for the 24 rounds of Keccak-f[1600], written in
decimal. -/
def keccakRC : List Nat :=
  [1, 32898, 9223372036854808714,
   9223372039002292224, 32907, 2147483649,
   9223372039002292353, 9223372036854808585, 138,
   136, 2147516425, 2147483658,
   2147516555, 9223372036854775947, 9223372036854808713,
   9223372036854808579, 9223372036854808578, 9223372036854775936,
   32778, 9223372039002259466, 9223372039002292353,
   9223372036854808704, 2147483649, 9223372039002292232]

/-- Lane `(x, y)` of a 25-lane state. -/
def keccakLane (A : List Nat) (x y : Nat) : Nat := A.getD (x + 5 * y) 0

def keccakTheta (A : List Nat) : List Nat :=
  let C := (List.range 5).map (fun x =>
    keccakLane A x 0 ^^^ keccakLane A x 1 ^^^ keccakLane A x 2 ^^^
      keccakLane A x 3 ^^^ keccakLane A x 4)
  let D := (List.range 5).map (fun x =>
    (C.getD ((x + 4) % 5) 0) ^^^ rol64 (C.getD ((x + 1) % 5) 0) 1)
  (List.range 25).map (fun i => A.getD i 0 ^^^ D.getD (i % 5) 0)

/-- rho and pi steps: output lane `(X, Y)` is the rotation of input lane
`(x, y)` where `X = y` and `Y = (2x + 3y) mod 5`; `x` is recovered as
`3 (Y + 2 X) mod 5` since `3` is the inverse of `2` modulo `5`. -/
def keccakRhoPi (A : List Nat) : List Nat :=
  (List.range 25).map (fun j =>
    let X := j % 5
    let Y := j / 5
    let x := (3 * (Y + 2 * X)) % 5
    let y := X
    rol64 (keccakLane A x y) (keccakRot.getD (x + 5 * y) 0))

def keccakChi (A : List Nat) : List Nat :=
  (List.range 25).map (fun j =>
    let x := j % 5
    let y := j / 5
    keccakLane A x y ^^^
      ((keccakLane A ((x + 1) % 5) y ^^^ lmask64) &&& keccakLane A ((x + 2) % 5) y))

def keccakIota (rc : Nat) (A : List Nat) : List Nat :=
  match A with
  | [] => []
  | a :: rest => (a ^^^ rc) :: rest

def keccakF (A : List Nat) : List Nat :=
  keccakRC.foldl (fun st rc => keccakIota rc (keccakChi (keccakRhoPi (keccakTheta st)))) A

/-- Pack 136 bytes into the first 17 lanes, little-endian within each lane. -/
def bytesToLanes (bs : List Nat) : List Nat :=
  (List.range 17).map (fun i =>
    (List.range 8).foldr (fun k acc => acc * 256 + bs.getD (8 * i + k) 0) 0)

def laneToBytesLE (v : Nat) : List Nat :=
  (List.range 8).map (fun k => (v >>> (8 * k)) &&& 255)

/-- Keccak-256 of a message of at most 135 bytes (one sponge block, rate 136):
multi-rate padding `0x01 … 0x80`, one permutation, squeeze 32 bytes. -/
def keccak256Bytes (msg : List Nat) : List Nat :=
  let padded := msg ++ [0x01] ++ List.replicate (134 - msg.length) 0 ++ [0x80]
  let lanes := bytesToLanes padded ++ List.replicate 8 0
  let final := keccakF lanes
  ((final.take 4).map laneToBytesLE).flatten

/-- Big-endian byte list to natural number. -/
def bytesBE (bs : List Nat) : Nat := bs.foldl (fun acc b => acc * 256 + b) 0

/-! ## ChaoticMapGenerator (`chaotic_map_generator.py`)

`get_helper_function_code` emits Solidity whose *positive* variant computes
`int256(uint256(keccak256(abi.encodePacked(val)))) % int256(100) + int256(20)`.
We embed the exact arithmetic of that generated code: `abi.encodePacked` of an
`int256` is its 32-byte big-endian two's-complement encoding; the
`int256(uint256 …)` cast reinterprets the hash two's-complement; Solidity `%`
on signed integers is the truncated modulo (`Int.tmod`). -/
/-- Encoding `abi.encodePacked(int256 val)`: 32-byte big-endian two's complement. -/
def encodeInt256 (v : Int) : List Nat :=
  let u := (v % (2 ^ 256 : Int)).toNat
  (List.range 32).map (fun i => (u >>> (8 * (31 - i))) &&& 255)

/-- Reinterpret a `uint256` value as an `int256` (two's complement). -/
def toInt256 (u : Nat) : Int :=
  if u < 2 ^ 255 then (u : Int) else (u : Int) - 2 ^ 256

/-- Semantics of the generated *positive*-variant helper body:
`int256(uint256(keccak256(abi.encodePacked(val)))) % int256(100) + int256(20)`
under Solidity's truncated signed modulo. -/
def cpmHelperPositive (val : Int) : Int :=
  (toInt256 (bytesBE (keccak256Bytes (encodeInt256 val)))).tmod 100 + 20

/-! ## Integer obfuscator (`interger_obfuscator.py`)

`_gen_expr_for(n)` picks one of five strategies and a random parameter and
returns a replacement string.  We embed the string generator verbatim
(`gen_expr_for`, with the random choices as explicit arguments), an
expression AST mirroring the shape of each generated string, a printer
linking the two, and the evaluation of the AST under fixed-width (256-bit)
wraparound arithmetic as the spec's sentence prescribes (Solidity `uint256`:
`+`, `-`, `*` wrap modulo `2^256`, `/` truncates, `<<` wraps, `>>` and `^`
are exact). -/
def W256 : Nat := 2 ^ 256

inductive IntStrategy where
  | add | sub | mul | shift | xor
deriving DecidableEq

inductive UExpr where
  | lit (n : Nat)
  | add (a b : UExpr)
  | sub (a b : UExpr)
  | mul (a b : UExpr)
  | div (a b : UExpr)
  | shl (a b : UExpr)
  | shr (a b : UExpr)
  | xor (a b : UExpr)
deriving DecidableEq

/-- Wraparound 256-bit evaluation (two's-complement-free unsigned model). -/
def evalWrap : UExpr → Nat
  | .lit n => n % W256
  | .add a b => (evalWrap a + evalWrap b) % W256
  | .sub a b => (evalWrap a + (W256 - evalWrap b)) % W256
  | .mul a b => (evalWrap a * evalWrap b) % W256
  | .div a b => evalWrap a / evalWrap b
  | .shl a b => (evalWrap a <<< evalWrap b) % W256
  | .shr a b => evalWrap a >>> evalWrap b
  | .xor a b => evalWrap a ^^^ evalWrap b

def printUExpr : UExpr → String
  | .lit n => toString n
  | .add a b => "(" ++ printUExpr a ++ "+" ++ printUExpr b ++ ")"
  | .sub a b => "(" ++ printUExpr a ++ "-" ++ printUExpr b ++ ")"
  | .mul a b => "(" ++ printUExpr a ++ "*" ++ printUExpr b ++ ")"
  | .div a b => "(" ++ printUExpr a ++ "/" ++ printUExpr b ++ ")"
  | .shl a b => "(" ++ printUExpr a ++ "<<" ++ printUExpr b ++ ")"
  | .shr a b => "(" ++ printUExpr a ++ ">>" ++ printUExpr b ++ ")"
  | .xor a b => "(" ++ printUExpr a ++ "^" ++ printUExpr b ++ ")"

/-- Model of `_gen_expr_for`, with the randomly chosen strategy and parameter made
explicit (`r` plays the role of `r` or `k` in the Python). -/
def gen_expr_for (strat : IntStrategy) (n r : Nat) : String :=
  match strat with
  | .add => "((" ++ toString n ++ "+" ++ toString r ++ ")-" ++ toString r ++ ")"
  | .sub => "((" ++ toString n ++ "-" ++ toString r ++ ")+" ++ toString r ++ ")"
  | .mul => "((" ++ toString n ++ "*" ++ toString r ++ ")/" ++ toString r ++ ")"
  | .shift => "((" ++ toString n ++ "<<" ++ toString r ++ ")>>" ++ toString r ++ ")"
  | .xor => "((" ++ toString n ++ "^" ++ toString r ++ ")^" ++ toString r ++ ")"

/-- The expression AST of the string `_gen_expr_for` builds. -/
def genExprAst (strat : IntStrategy) (n r : Nat) : UExpr :=
  match strat with
  | .add => .sub (.add (.lit n) (.lit r)) (.lit r)
  | .sub => .add (.sub (.lit n) (.lit r)) (.lit r)
  | .mul => .div (.mul (.lit n) (.lit r)) (.lit r)
  | .shift => .shr (.shl (.lit n) (.lit r)) (.lit r)
  | .xor => .xor (.xor (.lit n) (.lit r)) (.lit r)

/-- The random parameter ranges drawn by `_gen_expr_for`:
`add`/`sub` use `randint(1, 100)`, `mul` uses `randint(2, 10)`,
`shift` uses `randint(1, 3)`, `xor` uses `randint(1, 255)`. -/
def admissibleParam (strat : IntStrategy) (r : Nat) : Prop :=
  match strat with
  | .add => 1 ≤ r ∧ r ≤ 100
  | .sub => 1 ≤ r ∧ r ≤ 100
  | .mul => 2 ≤ r ∧ r ≤ 10
  | .shift => 1 ≤ r ∧ r ≤ 3
  | .xor => 1 ≤ r ∧ r ≤ 255

instance : ∀ s r, Decidable (admissibleParam s r) := by
  intro s r; cases s <;> simp [admissibleParam] <;> infer_instance

/-- The extra no-overflow side condition under which the `mul` and `shift`
identities survive 256-bit truncation. -/
def noOverflowParam (strat : IntStrategy) (n r : Nat) : Prop :=
  match strat with
  | .mul => n * r < W256
  | .shift => n * 2 ^ r < W256
  | _ => True

instance : ∀ s n r, Decidable (noOverflowParam s n r) := by
  intro s n r; cases s <;> simp [noOverflowParam] <;> infer_instance

/-! ## Pipeline orchestrator (`demo.py`, `run_demo`)

A pass is embedded as `String → Option String` (`none` = the pass raised;
passes that gate on a change count adopt their own input when the count is
zero, which is the same `some` case).  `run_demo` wraps the transformation
steps 0–8 and 10 each in their own `try/except` arm, whose handler keeps
the previous source and falls through to the next pass — but NOT step 9:
the `scramble_format` call sits bare inside the `if enable_formatting`
block, so an exception raised there propagates out of `run_demo`, the
renaming pass never runs, and no output file is written.  A step is
therefore a pass together with a `guarded` flag, and the orchestrator
returns `none` when the run aborts. -/
structure DemoStep where
  run : String → Option String
  guarded : Bool

/-- Outcome of one step: adopt the pass output; on failure keep the source
when the step is guarded by `try/except` and abort the run otherwise. -/
def run_demo_step (s : String) (st : DemoStep) : Option String :=
  match st.run s with
  | some t => some t
  | none => if st.guarded then some s else none

def run_demo_pipeline : List DemoStep → String → Option String
  | [], s => some s
  | st :: rest, s =>
    match run_demo_step s st with
    | some t => run_demo_pipeline rest t
    | none => none

/-- A pass forced to fail (always raises). -/
def failingPass : String → Option String := fun _ => none

/-- A pass that succeeds and leaves the source unchanged. -/
def idPass : String → Option String := fun s => some s

/-- Model of `run_demo` under the default environment (`BIAN_STATIC_ONLY`
off, every `BIAN_ENABLE_*` flag at its default `"1"`): the pre-processing,
opaque-predicate, flattening, local-to-state, static-data, boolean,
integer, scalar-splitting, comment-removal and renaming passes each run
inside `try/except`; the step-9 format-scrambling pass is unguarded. -/
def run_demo (preprocessing opaquePreds flattening localState staticData
    booleans integers scalars comments scrambleFormat renamer :
      String → Option String) (input : String) : Option String :=
  run_demo_pipeline
    [⟨preprocessing, true⟩, ⟨opaquePreds, true⟩, ⟨flattening, true⟩,
     ⟨localState, true⟩, ⟨staticData, true⟩, ⟨booleans, true⟩,
     ⟨integers, true⟩, ⟨scalars, true⟩, ⟨comments, true⟩,
     ⟨scrambleFormat, false⟩, ⟨renamer, true⟩] input

/-! ## Control-flow flattener (`flattening_obfuscator.py`)

Statements are embedded with the data `_create_basic_blocks` actually reads
off the AST/source pair: an `IfStatement` carries its condition text, the
extracted true/false body texts and whether each body is a `Block` (so the
code strips its braces); a `VariableDeclarationStatement` carries its
declarations (`none` marks a tuple gap) and optional initializer text; any
other statement carries its `nodeType`, extracted text, and child statements
(used by `_has_branching`). -/
structure VDecl where
  name : String
  typeText : String
deriving DecidableEq

inductive FStmt where
  | ifStmt (condText : String) (trueRaw : String) (trueIsBlock : Bool)
      (falseBody : Option (String × Bool))
  | varDecl (decls : List (Option VDecl)) (initText : Option String)
  | other (nodeType : String) (text : String) (children : List FStmt)

structure BBlock where
  id : Nat
  content : String
  next : Option Nat
deriving DecidableEq

structure BBState where
  blocks : List BBlock
  hoisted : List String
  currentId : Nat
  cur : List String
deriving DecidableEq

/-- Node types receiving the missing-semicolon fix. -/
def terminalKinds : List String :=
  ["Return", "ReturnStatement", "ExpressionStatement", "EmitStatement", "RevertStatement"]

/-- Model of `true_text.strip()[1:-1]` applied when the branch body is a `Block`. -/
def stripBlockBraces (raw : String) (isBlock : Bool) : String :=
  if isBlock then pyDropRight (pyDrop (pyTrim raw) 1) 1 else raw

/-- Model of `text.strip() if text.strip() else emptyMark`. -/
def branchContent (raw : String) (isBlock : Bool) (emptyMark : String) : String :=
  let t := pyTrim (stripBlockBraces raw isBlock)
  if t = "" then emptyMark else t

/-- Flush the pending linear statements into a block chained to the next id
(the `if current_block_content:` prologue of the `IfStatement` case). -/
def flushCur (st : BBState) : BBState :=
  if st.cur.isEmpty then st
  else { st with
    blocks := st.blocks ++ [⟨st.currentId, joinNL st.cur, some (st.currentId + 1)⟩],
    currentId := st.currentId + 1, cur := [] }

/-- The lowered condition block body: sets `state` to the true or false id. -/
def ifLoweredContent (cond : String) (trueId falseId : Nat) : String :=
  "if (" ++ cond ++ ") \x7b\n    state = " ++ toString trueId ++
    ";\n\x7d else \x7b\n    state = " ++ toString falseId ++ ";\n\x7d"

/-- One hoisted declaration line: `"        {type_text} {var_name};"`. -/
def hoistLine (d : VDecl) : String := "        " ++ d.typeText ++ " " ++ d.name ++ ";"

/-- Model of `_get_default_value_for_type`. -/
def get_default_value_for_type (t : String) : String :=
  let s := pyTrim t
  if pyStartsWith s "bool" then "false"
  else if pyStartsWith s "string" then "\"\""
  else if pyStartsWith s "bytes" then "\"\""
  else if pyStartsWith s "address" then "address(0)"
  else "0"

def joinComma : List String → String
  | [] => ""
  | [s] => s
  | s :: rest => s ++ "," ++ joinComma rest

/-- Assignment left-hand side for an initialized declaration statement. -/
def tupleLhs (decls : List (Option VDecl)) : String :=
  match decls with
  | [some d] => d.name
  | _ => "(" ++ joinComma (decls.map (fun o => match o with
      | some d => d.name
      | none => "")) ++ ")"

/-- The body of `_create_basic_blocks`'s statement loop. -/
def create_blocks_step (st : BBState) (s : FStmt) : BBState :=
  match s with
  | .ifStmt cond trueRaw trueIsBlock falseBody =>
    let st1 := flushCur st
    let nextAfter := st1.currentId + (if falseBody.isSome then 3 else 2)
    let trueId := st1.currentId + 1
    let falseId := if falseBody.isSome then st1.currentId + 2 else nextAfter
    let condBlock : BBlock := ⟨st1.currentId, ifLoweredContent cond trueId falseId, none⟩
    let trueBlock : BBlock :=
      ⟨trueId, branchContent trueRaw trueIsBlock "// empty true block", some nextAfter⟩
    let falseBlocks : List BBlock :=
      match falseBody with
      | some (fRaw, fIsBlock) =>
          [⟨falseId, branchContent fRaw fIsBlock "// empty false block", some nextAfter⟩]
      | none => []
    { st1 with blocks := st1.blocks ++ [condBlock, trueBlock] ++ falseBlocks,
               currentId := nextAfter }
  | .varDecl decls initText =>
    let st1 := { st with hoisted := st.hoisted ++ (decls.filterMap id).map hoistLine }
    match initText with
    | some rhs => { st1 with cur := st1.cur ++ [tupleLhs decls ++ " = " ++ rhs ++ ";"] }
    | none =>
      let resets := (decls.filterMap id).map
        (fun d => d.name ++ " = " ++ get_default_value_for_type d.typeText ++ ";")
      { st1 with cur := st1.cur ++ resets }
  | .other nodeType text _ =>
    let t := pyTrim text
    let t2 := if terminalKinds.contains nodeType && !(pyEndsWith t ";") then t ++ ";" else t
    { st with cur := st.cur ++ [t2] }

/-- The final-flush terminality test on the last pending statement text. -/
def lastIsTerminal (cur : List String) : Bool :=
  match cur.getLast? with
  | some last =>
      pyStartsWith last "return " || pyStartsWith last "revert(" || pyStartsWith last "revert "
  | none => false

/-- Model of `_create_basic_blocks`: fold the statement loop, then flush the trailing
linear block, whose successor is `0` unless its last statement is terminal. -/
def create_basic_blocks (stmts : List FStmt) : List BBlock × List String :=
  let st := stmts.foldl create_blocks_step ⟨[], [], 1, []⟩
  let finalBlocks :=
    if st.cur.isEmpty then st.blocks
    else st.blocks ++
      [⟨st.currentId, joinNL st.cur, if lastIsTerminal st.cur then none else some 0⟩]
  (finalBlocks, st.hoisted)

/-! `textwrap.dedent` / `textwrap.indent` (Python stdlib helpers used by
`_generate_dispatcher`), modelled with `'\n'` as the line separator. -/
def isSpaceTab (c : Char) : Bool := c == ' ' || c == '\t'

def leadingWSChars (ln : String) : List Char := ln.toList.takeWhile isSpaceTab

def commonPrefixChars : List Char → List Char → List Char
  | a :: as, b :: bs => if a == b then a :: commonPrefixChars as bs else []
  | _, _ => []

/-- Model of `textwrap.dedent`: blank out whitespace-only lines, compute the longest
common leading space/tab margin of the remaining non-empty lines, and strip
it from every line that starts with it. -/
def pydedent (text : String) : String :=
  let lines := pySplitLinesNL text
  let lines := lines.map (fun ln =>
    if !ln.toList.isEmpty && ln.toList.all isSpaceTab then "" else ln)
  let contents := lines.filter (fun ln => ln.toList.any (fun c => !isSpaceTab c))
  let margin : List Char :=
    match contents with
    | [] => []
    | l0 :: rest => rest.foldl (fun m ln => commonPrefixChars m (leadingWSChars ln))
        (leadingWSChars l0)
  let k := margin.length
  joinNL (lines.map (fun ln =>
    if pyStartsWith ln (String.mk margin) then pyDrop ln k else ln))

/-- Model of `textwrap.indent`: add the prefix to every line containing a
non-whitespace character. -/
def pyindent (text pre : String) : String :=
  joinNL ((pySplitLinesNL text).map (fun ln =>
    if ln.toList.any (fun c => !isPyWS c) then pre ++ ln else ln))

/-- One dispatcher arm (`block_code` in `_generate_dispatcher`). -/
def armCode (isFirst : Bool) (b : BBlock) : String :=
  let pre := if isFirst then "if" else "else if"
  let indented := pyindent (pyTrim (pydedent b.content)) "                "
  "            " ++ pre ++ " (state == " ++ toString b.id ++ ") \x7b\n" ++
    indented ++ "\n" ++
    (match b.next with
     | some n => "                state = " ++ toString n ++ ";\n"
     | none => "") ++
    "            \x7d\n"

def armsFor : Bool → List BBlock → String
  | _, [] => ""
  | isFirst, b :: rest => armCode isFirst b ++ armsFor false rest

def hoistedSection (hoisted : List String) : String :=
  if hoisted.isEmpty then ""
  else "        // --- Hoisted Local Variables ---\n" ++
    joinCat (hoisted.map (fun v => v ++ "\n")) ++
    "        // -------------------------------\n\n"

/-- The dispatcher loop header: state initialisation and the persistent
`state != 0` loop predicate. -/
def LOOPHDR : String := "        uint256 state = 1;\n        while (state != 0) \x7b\n"

/-- Model of `_generate_dispatcher`, with the shuffled presentation order passed in
(`random.shuffle` is modelled by quantifying over the presentation list). -/
def generate_dispatcher (presentation : List BBlock) (hoisted : List String) : String :=
  "\x7b\n" ++ hoistedSection hoisted ++ LOOPHDR ++
    armsFor true presentation ++
    "        \x7d\n    \x7d"

/-! `flatten_control_flow`: function records carry what `_find_functions`
reads (implemented flag, optional body statements, the body's byte range). -/
structure FFunc where
  implemented : Bool
  body : Option (List FStmt)
  bodyStart : Nat
  bodyEnd : Nat

def branchingKinds : List String :=
  ["IfStatement", "WhileStatement", "ForStatement", "DoWhileStatement"]

mutual
/-- Model of `_has_branching` on a statement node. -/
def has_branching : FStmt → Bool
  | .ifStmt _ _ _ _ => true
  | .varDecl _ _ => false
  | .other nodeType _ children =>
      branchingKinds.contains nodeType || has_branching_list children
/-- Model of `_has_branching` over the children of a node. -/
def has_branching_list : List FStmt → Bool
  | [] => false
  | s :: rest => has_branching s || has_branching_list rest
end

/-- Replace `buf[s:e]` by `repl`. -/
def spliceChars (buf : List Char) (s e : Nat) (repl : List Char) : List Char :=
  buf.take s ++ repl ++ buf.drop e

/-- One iteration of the `for func in functions_to_flatten` loop. -/
def flatten_step (shuffle : List BBlock → List BBlock)
    (acc : List Char × Nat) (f : FFunc) : List Char × Nat :=
  match f.body with
  | none => acc
  | some stmts =>
    if stmts.isEmpty then acc
    else if stmts.length < 2 && !has_branching_list stmts then acc
    else
      let (blocks, hoisted) := create_basic_blocks stmts
      let newBody := generate_dispatcher (shuffle blocks) hoisted
      (spliceChars acc.1 f.bodyStart f.bodyEnd newBody.toList, acc.2 + 1)

/-- Model of `_find_functions`: it keeps implemented functions with a body. -/
def find_functions (funcs : List FFunc) : List FFunc :=
  funcs.filter (fun f => f.implemented && f.body.isSome)

/-- Model of `flatten_control_flow`: sort the found functions bottom-up by body start
and splice each flattened body; returns the new source and the count. -/
def flatten_control_flow (shuffle : List BBlock → List BBlock)
    (source : List Char) (funcs : List FFunc) : List Char × Nat :=
  (sortDescBy (fun f => f.bodyStart) (find_functions funcs)).foldl
    (flatten_step shuffle) (source, 0)

/-- The skip policy of `flatten_control_flow` for a single function record:
not implemented, no body, empty statement list, or fewer than two statements
without branching. -/
def skip_flatten (f : FFunc) : Bool :=
  !f.implemented ||
    (match f.body with
     | some stmts => stmts.isEmpty || (stmts.length < 2 && !has_branching_list stmts)
     | none => true)

/-! Theorems for claims C2, C3, C8. -/
def c2CexStmts : List FStmt :=
  [FStmt.ifStmt "x > 5" "\x7b return x; \x7d" true (some ("\x7b return 0; \x7d", true))]

/-- The body-based part of the skip policy (what the per-function loop
itself tests; `_find_functions` has already filtered on `implemented`). -/
def skip_body (f : FFunc) : Bool :=
  match f.body with
  | some stmts => stmts.isEmpty || (stmts.length < 2 && !has_branching_list stmts)
  | none => true

def c8SkipFunc : FFunc :=
  ⟨true, some [FStmt.other "ExpressionStatement" "x = 1;" []], 5, 10⟩

/-! ## Opaque predicate inserter (`opaque_predicate_obfuscator.py`)

`insert_opaque_predicates` works on the byte buffer of the source; we model
bytes as characters (ASCII inputs).  The `ChaoticMapGenerator`'s random
names, initial value and variant are the fields of `CpmGen`; the AST handed
over by the external compiler is a tree of nodes carrying `nodeType`/`name`
fields and the parsed `(start, length)` of an if/while condition. -/
inductive CpmVariant where
  | positive | negative | even
deriving DecidableEq

structure CpmGen where
  state_var_name : String
  helper_func_name : String
  initial_value : Nat
  variant : CpmVariant

/-- Model of `ChaoticMapGenerator.get_state_variable_declaration`. -/
def get_state_variable_declaration (g : CpmGen) : String :=
  "    int256 private " ++ g.state_var_name ++ " = int256(" ++
    toString g.initial_value ++ ");"

/-- Model of `ChaoticMapGenerator.get_helper_function_code`. -/
def get_helper_function_code (g : CpmGen) : String :=
  match g.variant with
  | .positive =>
    "\n    function " ++ g.helper_func_name ++
      "(int256 val) internal pure returns (int256) \x7b\n        // BiAn Chaotic Map (CPM) - Positive Variant\n        return int256(uint256(keccak256(abi.encodePacked(val)))) % int256(100) + int256(20);\n    \x7d"
  | .negative =>
    "\n    function " ++ g.helper_func_name ++
      "(int256 val) internal pure returns (int256) \x7b\n        // BiAn Chaotic Map (CPM) - Negative Variant\n        return (int256(uint256(keccak256(abi.encodePacked(val)))) % int256(100)) - int256(150);\n    \x7d"
  | .even =>
    "\n    function " ++ g.helper_func_name ++
      "(int256 val) internal pure returns (int256) \x7b\n        // BiAn Chaotic Map (CPM) - Even Variant\n        return (int256(uint256(keccak256(abi.encodePacked(val)))) % int256(50)) * int256(2);\n    \x7d"

/-- Model of `ChaoticMapGenerator.get_predicate_condition`. -/
def get_predicate_condition (g : CpmGen) : String :=
  match g.variant with
  | .positive => "(" ++ g.helper_func_name ++ "(" ++ g.state_var_name ++ ") > int256(10))"
  | .negative => "(" ++ g.helper_func_name ++ "(" ++ g.state_var_name ++ ") < -int256(10))"
  | .even =>
    "(" ++ g.helper_func_name ++ "(" ++ g.state_var_name ++ ") % int256(2) == int256(0))"

/-- AST node as `_find_injection_points` reads it: the resolved node type is
`get("nodeType") or get("name")` (so an empty `nodeType` string falls back to
`name`), and an if/while node may carry its condition's parsed
`(start, length)`. -/
inductive PNode where
  | mk (nodeType : Option String) (nameFld : Option String)
      (condSrc : Option (Nat × Nat)) (children : List PNode)

mutual
/-- Model of `_find_injection_points`: collect `(type, start, length)` for every
if/while node with a condition, in pre-order. -/
def find_injection_points : PNode → List (String × Nat × Nat)
  | .mk nodeType nameFld condSrc children =>
    let resolved :=
      match nodeType with
      | some t => if t == "" then nameFld else some t
      | none => nameFld
    let own :=
      if resolved == some "IfStatement" then
        match condSrc with
        | some (s, l) => [("IfStatement", s, l)]
        | none => []
      else if resolved == some "WhileStatement" then
        match condSrc with
        | some (s, l) => [("WhileStatement", s, l)]
        | none => []
      else []
    own ++ find_injection_points_list children
def find_injection_points_list : List PNode → List (String × Nat × Nat)
  | [] => []
  | n :: rest => find_injection_points n ++ find_injection_points_list rest
end

/-- Python `needle in hay` prefix test at the current position. -/
def startsWithList (needle l : List Char) : Bool := l.take needle.length == needle

/-- Python substring containment (`needle in hay`). -/
def containsSub (needle : List Char) : List Char → Bool
  | [] => needle.isEmpty
  | l@(_ :: rest) => startsWithList needle l || containsSub needle rest

/-- Wrapping `"(" + cond + ") && " + cpm_condition`. -/
def wrapCond (cond predCond : List Char) : List Char :=
  '(' :: cond ++ (')' :: ' ' :: '&' :: '&' :: ' ' :: predCond)

/-- The replacement loop of `insert_opaque_predicates` (step 4): each point
is skipped if its range exceeds the original buffer or its condition already
contains the helper name; otherwise the evolving buffer is spliced with the
wrapped condition read from the *original* buffer.  Returns the buffer and
`inserted_count`. -/
def rewrite_conditions (orig predCond helperName : List Char)
    (pts : List (Nat × Nat)) : List Char × Nat :=
  pts.foldl (fun acc p =>
    if p.2 > orig.length then acc
    else
      let cond := (orig.take p.2).drop p.1
      if containsSub helperName cond then acc
      else (acc.1.take p.1 ++ wrapCond cond predCond ++ acc.1.drop p.2, acc.2 + 1))
    (orig, 0)

/-- Python regex word character (`\w`, ASCII). -/
def isWordChar (c : Char) : Bool := c.isAlphanum || c == '_'

def headIsWordChar : List Char → Bool
  | [] => false
  | c :: _ => isWordChar c

/-- Model of `re.sub(r'\bpure\b', 'view', …)`: scan left to right with the
word-character status of the previous character; a `pure` token with
non-word neighbours on both sides becomes `view` and scanning resumes after
it (the preceding character is then `e`, a word character). -/
def replace_word_pure : Bool → List Char → List Char
  | _, [] => []
  | prevW, 'p' :: 'u' :: 'r' :: 'e' :: rest =>
    if !prevW && !headIsWordChar rest then
      'v' :: 'i' :: 'e' :: 'w' :: replace_word_pure true rest
    else 'p' :: replace_word_pure true ('u' :: 'r' :: 'e' :: rest)
  | _, c :: rest => c :: replace_word_pure (isWordChar c) rest

/-- Is there a word-boundary `pure` token anywhere (with the given
word-character status just before the buffer)? -/
def has_word_pure : Bool → List Char → Bool
  | _, [] => false
  | prevW, 'p' :: 'u' :: 'r' :: 'e' :: rest =>
    (!prevW && !headIsWordChar rest) || has_word_pure true ('u' :: 'r' :: 'e' :: rest)
  | _, c :: rest => has_word_pure (isWordChar c) rest

/-- Index just past the last `{` on the current line (no `'\n'` may
intervene), the deterministic residue of the greedy `.*\{` of the contract
regex. -/
def lastBraceOnLine : List Char → Nat → Option Nat → Option Nat
  | [], _, best => best
  | c :: rest, i, best =>
    if c == '\n' then best
    else lastBraceOnLine rest (i + 1) (if c == '\x7b' then some (i + 1) else best)

/-- Match `re.search(r'contract\s+\w+.*\{', …)` at the head of the buffer
and return the match length.  The whitespace run and word run are forced to
be the maximal ones (backtracking cannot shorten them: `\s`, `\w` and the
following characters are disjoint), and the greedy `.*` makes the match end
after the last `{` on the same line. -/
def match_contract_at (l : List Char) : Option Nat :=
  if l.take 8 == "contract".toList then
    let rest := l.drop 8
    let wsLen := (rest.takeWhile isPyWS).length
    if wsLen == 0 then none
    else
      let rest2 := rest.drop wsLen
      let wLen := (rest2.takeWhile isWordChar).length
      if wLen == 0 then none
      else
        match lastBraceOnLine (rest2.drop wLen) 0 none with
        | some i => some (8 + wsLen + wLen + i)
        | none => none
  else none

/-- Model of `re.search`: leftmost match; returns the insert position
(`match.end()`). -/
def find_contract_insert_pos : List Char → Nat → Option Nat
  | [], _ => none
  | l@(_ :: rest), off =>
    match match_contract_at l with
    | some len => some (off + len)
    | none => find_contract_insert_pos rest (off + 1)

/-- The injected components: state variable then helper function. -/
def cpm_components (g : CpmGen) : String :=
  "\n" ++ get_state_variable_declaration g ++ "\n" ++ get_helper_function_code g ++ "\n"

/-- The found points parsed to `(start, end)` ranges
(`_parse_src_to_range`: `(start, start + length)`). -/
def parse_points (ast : PNode) : List (Nat × Nat) :=
  (find_injection_points ast).map (fun p => (p.2.1, p.2.1 + p.2.2))

/-- Steps 3–4 of `insert_opaque_predicates`: sort the parsed points by start
descending and run the replacement loop. -/
def rewritten_result (ast : PNode) (source : List Char) (g : CpmGen) : List Char × Nat :=
  rewrite_conditions source (get_predicate_condition g).toList g.helper_func_name.toList
    (sortDescBy (fun q => q.1) (parse_points ast))

/-- Step 6: inject the CPM components after the first contract header brace
(or leave the source as is when no contract definition is found). -/
def inject_components (g : CpmGen) (replaced : List Char) : List Char :=
  match find_contract_insert_pos replaced 0 with
  | some pos => replaced.take pos ++ (cpm_components g).toList ++ replaced.drop pos
  | none => replaced

/-- Model of `insert_opaque_predicates`, with the external `_get_ast` result passed as
`astOpt` (`none` models AST generation failure). -/
def insert_opaque_predicates (astOpt : Option PNode) (source : List Char)
    (g : CpmGen) : List Char :=
  match astOpt with
  | none => source
  | some ast =>
    if (find_injection_points ast).isEmpty then source
    else
      let res := rewritten_result ast source g
      if res.2 == 0 then source
      else inject_components g (replace_word_pure false res.1)

/-! Theorems for claims C7 and C10. -/
/-- Well-formedness of a parsed point list against the AST-provider contract
(ascending document order, ranges inside the buffer, nonempty conditions)
together with the amendment's proviso: no condition text already contains
the helper function name. -/
def ptsOkFrom (src helperName : List Char) : Nat → List (Nat × Nat) → Bool
  | _, [] => true
  | lo, (s, e) :: rest =>
    decide (lo ≤ s) && decide (s < e) && decide (e ≤ src.length) &&
      !containsSub helperName ((src.take e).drop s) && ptsOkFrom src helperName e rest

/-- The purely additive rewrite the spec describes, over ascending points:
each condition span is replaced by `(cond) && predCond` with the original
condition text kept intact, and everything else is untouched. -/
def expected_rewrite (src predCond : List Char) : List (Nat × Nat) → List Char
  | [] => src
  | (s, e) :: rest =>
    src.take s ++ wrapCond ((src.take e).drop s) predCond ++
      (expected_rewrite src predCond rest).drop e

/-- The concrete generator for the C7 counterexample. -/
def c7Gen : CpmGen := ⟨"cpm_x_1111", "calculateCPM_1234", 12345, CpmVariant.positive⟩

def c7Source : List Char := "if (calculateCPM_1234(x) > int256(0)) \x7b \x7d".toList

def c7Ast : PNode := PNode.mk (some "IfStatement") none (some (4, 32)) []

def c10EmptyAst : PNode := PNode.mk (some "ContractDefinition") none none []

def c6Gen : CpmGen := ⟨"cpm_x_1111", "calculateCPM_1234", 12345, CpmVariant.positive⟩

def c6Source : List Char :=
  ("contract C \x7b\n    function f(uint x) public \x7b\n        if (x > 1) \x7b \x7d\n    \x7d\n    function g() internal pure returns (uint) \x7b\n        return 1;\n    \x7d\n\x7d").toList

def c6Ast : PNode :=
  PNode.mk (some "SourceUnit") none none
    [PNode.mk (some "IfStatement") none (some (57, 5)) []]

/-! ## Comment remover (`comment_remover.py`)

`remove_comments` runs `re.finditer` with the combined pattern
`/\*[\s\S]*?\*/|///[^\n\r]*|//[^\n\r]*` over the source, skips matches whose
start lies inside a string literal per the quote-parity scan
`_is_inside_string`, and deletes the remaining spans in reverse start order.
The scanner is embedded with explicit fuel (one unit per consumed position)
so that it stays kernel-computable; `fuel = length` always suffices.  The
`///…` alternative matches exactly the same span as `//…`, so the
alternation reduces to: closed block comment first, else line comment. -/
def is_line_end (c : Char) : Bool := c == '\n' || c == '\r'

/-- Index of the `*` of the first `*/` pair (the non-greedy `[\s\S]*?\*/`). -/
def find_close : List Char → Option Nat
  | [] => none
  | c :: rest =>
    if c = '*' ∧ rest.head? = some '/' then some 0
    else (find_close rest).map (fun k => k + 1)

/-- Length of the combined-pattern match at the head of the buffer. -/
def match_from (l : List Char) : Option Nat :=
  if l.take 2 = ['/', '*'] then (find_close (l.drop 2)).map (fun k => k + 4)
  else if l.take 2 = ['/', '/'] then
    some (2 + ((l.drop 2).takeWhile (fun c => !is_line_end c)).length)
  else none

/-- Model of `re.finditer`: collect the `(start, end)` spans of all matches, resuming
after each match and advancing one position on failure. -/
def scan_comments : Nat → List Char → Nat → List (Nat × Nat)
  | 0, _, _ => []
  | fuel + 1, l, off =>
    match match_from l with
    | some len => (off, off + len) :: scan_comments fuel (l.drop len) (off + len)
    | none =>
      match l with
      | [] => []
      | _ :: rest => scan_comments fuel rest (off + 1)

/-- Quote counter used by `_is_inside_string`: count `"` characters not preceded
by a backslash (`prev` is the previous character, `none` at the start). -/
def count_unescaped_quotes : Option Char → List Char → Nat
  | _, [] => 0
  | prev, c :: rest =>
    (if c == '"' && !(prev == some '\\') then 1 else 0) +
      count_unescaped_quotes (some c) rest

/-- Model of `_is_inside_string`. -/
def is_inside_string (src : List Char) (pos : Nat) : Bool :=
  count_unescaped_quotes none (src.take pos) % 2 == 1

/-- Model of `CommentRemover.remove_comments`: matches outside string literals are
deleted from the buffer in descending start order. -/
def remove_comments (src : List Char) : List Char :=
  let ops := (scan_comments src.length src 0).filter (fun p => !is_inside_string src p.1)
  (sortDescBy (fun p => p.1) ops).foldl (fun acc p => acc.take p.1 ++ acc.drop p.2) src

/-- The fused single-pass scanner-and-deleter: copy a character on match
failure, skip the whole match otherwise.  On quote-free input it computes
`remove_comments` directly. -/
def strip_comments_go : Nat → List Char → List Char
  | 0, l => l
  | fuel + 1, l =>
    match match_from l with
    | some len => strip_comments_go fuel (l.drop len)
    | none =>
      match l with
      | [] => []
      | c :: rest => c :: strip_comments_go fuel rest

def strip_comments (l : List Char) : List Char := strip_comments_go l.length l

/-- Chained well-formedness of comment spans: ascending, nonempty, within
the buffer. -/
def spansOk (len : Nat) : Nat → List (Nat × Nat) → Prop
  | _, [] => True
  | lo, (s, e) :: rest => lo ≤ s ∧ s < e ∧ e ≤ len ∧ spansOk len e rest

/-- Interpretation of a deletion list over ascending spans: keep the prefix
before each span and continue after it. -/
def apply_deletes (src : List Char) : List (Nat × Nat) → List Char
  | [] => src
  | (s, e) :: rest => src.take s ++ (apply_deletes src rest).drop e

/-! Theorems for claim C1. -/
/-- Sanity check of the Keccak-256 embedding: the hash of the empty message
is the well-known constant `c5d246…a470`. -/
theorem keccak256_empty_correct :
    bytesBE (keccak256Bytes []) =
      0xc5d2460186f7233c927e7db2dcc703c0e500b653ca82273b7bfad8045d85a470 := by
  decide

/-- C1: the spec states that the positive-variant chaotic-map helper
`int256(uint256(keccak256(abi.encodePacked(val)))) % 100 + 20` returns a value
strictly greater than 10 for every int256 seed, making `helper(seed) > 10` a
tautology.  This is false on the code: for the seed `12347` — which lies in
`[12345, 99999]`, the range the generator draws the persistent seed state
variable's initial value from — the hash reinterprets as a *negative* int256,
Solidity's truncated signed modulo yields a negative remainder, and the helper
returns `9`, which is not greater than `10` (seed `12349` even gives `-11`).
The generated comment in the code claims "Range [20, 119] -> Always > 10",
so the code contradicts its own documentation. -/
theorem cpmHelperPositive_not_tautology :
    cpmHelperPositive 12347 = 9 ∧ ¬ (cpmHelperPositive 12347 > 10) ∧
      cpmHelperPositive 12349 = -11 := by
  refine ⟨by decide, by decide, by decide⟩

/-! Theorems for claim C4. -/
/-- Reassociation of the two leading parentheses of the generated strings. -/
theorem parenSplit (x : String) : "((" ++ x = "(" ++ ("(" ++ x) := by
  rw [← String.append_assoc]
  rfl

/-- C4 counterexample: the claim quantifies over *every* non-negative integer
literal, but under 256-bit wraparound the `mul` strategy loses the top bits:
for `n = 2^255` with the admissible parameter `r = 2`, the generated
expression `((n*2)/2)` evaluates to `0`, not `n`. -/
theorem gen_expr_mul_overflow_counterexample :
    admissibleParam IntStrategy.mul 2 ∧
      evalWrap (genExprAst IntStrategy.mul (2 ^ 255) 2) = 0 ∧
      ¬ evalWrap (genExprAst IntStrategy.mul (2 ^ 255) 2) = 2 ^ 255 := by
  refine ⟨⟨by norm_num, by norm_num⟩, by decide, by decide⟩

/-- C4 (amended): for every in-range literal `n < 2^256`, every strategy and
every admissible random parameter, *provided* the `mul`/`shift` intermediate
does not overflow 256 bits, the string `_gen_expr_for` builds prints the
expression AST `genExprAst`, and that expression evaluates under 256-bit
wraparound arithmetic to exactly `n`. -/
theorem gen_expr_for_correct (strat : IntStrategy) (n r : Nat)
    (hn : n < W256) (hr : admissibleParam strat r) (ho : noOverflowParam strat n r) :
    gen_expr_for strat n r = printUExpr (genExprAst strat n r) ∧
      evalWrap (genExprAst strat n r) = n := by
  constructor
  · cases strat <;>
      simp only [gen_expr_for, printUExpr, genExprAst, String.append_assoc] <;>
      exact parenSplit _
  · cases strat with
    | add =>
      obtain ⟨h1, h2⟩ := hr
      have hrW : r < W256 := lt_of_le_of_lt h2 (by norm_num [W256])
      simp only [genExprAst, evalWrap]
      rw [Nat.mod_eq_of_lt hn, Nat.mod_eq_of_lt hrW, Nat.mod_add_mod]
      have : n + r + (W256 - r) = n + W256 := by omega
      rw [this, Nat.add_mod_right, Nat.mod_eq_of_lt hn]
    | sub =>
      obtain ⟨h1, h2⟩ := hr
      have hrW : r < W256 := lt_of_le_of_lt h2 (by norm_num [W256])
      simp only [genExprAst, evalWrap]
      rw [Nat.mod_eq_of_lt hn, Nat.mod_eq_of_lt hrW, Nat.mod_add_mod]
      have : n + (W256 - r) + r = n + W256 := by omega
      rw [this, Nat.add_mod_right, Nat.mod_eq_of_lt hn]
    | mul =>
      obtain ⟨h1, h2⟩ := hr
      have hrW : r < W256 := lt_of_le_of_lt h2 (by norm_num [W256])
      simp only [genExprAst, evalWrap, noOverflowParam] at *
      rw [Nat.mod_eq_of_lt hn, Nat.mod_eq_of_lt hrW, Nat.mod_eq_of_lt ho,
        Nat.mul_div_cancel _ (by omega : 0 < r)]
    | shift =>
      obtain ⟨h1, h2⟩ := hr
      have hrW : r < W256 := lt_of_le_of_lt h2 (by norm_num [W256])
      simp only [genExprAst, evalWrap, noOverflowParam] at *
      rw [Nat.mod_eq_of_lt hn, Nat.mod_eq_of_lt hrW, Nat.shiftLeft_eq,
        Nat.mod_eq_of_lt ho, Nat.shiftRight_eq_div_pow,
        Nat.mul_div_cancel _ (Nat.pos_pow_of_pos r (by omega))]
    | xor =>
      obtain ⟨h1, h2⟩ := hr
      have hrW : r < W256 := lt_of_le_of_lt h2 (by norm_num [W256])
      simp only [genExprAst, evalWrap]
      rw [Nat.mod_eq_of_lt hn, Nat.mod_eq_of_lt hrW, Nat.xor_assoc,
        Nat.xor_self, Nat.xor_zero]

/-- C4 amended-claim witness at `strat = add`, `n = 7`, `r = 5`. -/
theorem gen_expr_for_correct_witness :
    7 < W256 ∧ admissibleParam IntStrategy.add 5 ∧
      noOverflowParam IntStrategy.add 7 5 ∧
      (gen_expr_for IntStrategy.add 7 5 = printUExpr (genExprAst IntStrategy.add 7 5) ∧
        evalWrap (genExprAst IntStrategy.add 7 5) = 7) :=
  ⟨by norm_num [W256], by norm_num [admissibleParam], trivial,
    gen_expr_for_correct IntStrategy.add 7 5 (by norm_num [W256])
      (by norm_num [admissibleParam]) trivial⟩

/-! Theorems for claim C5. -/
/-- Splitting the step list splits the run: the whole pipeline is the
second half bound after the first (and `none`, an aborted run, stays
aborted). -/
theorem run_demo_pipeline_append (a b : List DemoStep) (input : String) :
    run_demo_pipeline (a ++ b) input =
      (run_demo_pipeline a input).bind (run_demo_pipeline b) := by
  induction a generalizing input with
  | nil => rfl
  | cons st rest ih =>
    rw [List.cons_append]
    show (match run_demo_step input st with
      | some t => run_demo_pipeline (rest ++ b) t
      | none => none) =
      ((match run_demo_step input st with
        | some t => run_demo_pipeline rest t
        | none => none).bind (run_demo_pipeline b))
    cases run_demo_step input st with
    | some t => exact ih t
    | none => rfl

/-- A guarded step never aborts: it yields the pass output, or its input
on failure. -/
theorem run_demo_step_guarded (s : String) (p : String → Option String) :
    run_demo_step s ⟨p, true⟩ = some ((p s).getD s) := by
  cases h : p s <;> simp [run_demo_step, h]

/-- C5 counterexample: with every other pass the identity, forcing the
step-9 format-scrambling pass to fail aborts the whole run (the exception
propagates out of `run_demo`, the renaming pass never runs, and no output
is written), whereas the claim demands the output the remaining passes
produce from the step-8 source — which the run with a healthy step 9 does
deliver. -/
theorem run_demo_format_failure_aborts :
    run_demo idPass idPass idPass idPass idPass idPass idPass idPass idPass
        failingPass idPass "contract C \x7b \x7d" = none ∧
      run_demo idPass idPass idPass idPass idPass idPass idPass idPass idPass
        idPass idPass "contract C \x7b \x7d" = some "contract C \x7b \x7d" :=
  ⟨rfl, rfl⟩

/-- C5 (amended): resilience holds for exactly the guarded passes.
Forcing a `try/except`-guarded pass to fail keeps the pass-(K−1) source
and runs the remaining steps on it; an unguarded failing step aborts the
run; and in `run_demo` specifically the one unguarded step is step 9,
format scrambling, whose failure yields no output whatever the other
passes do. -/
theorem run_demo_resilience_guarded_only (earlier later : List DemoStep)
    (pre cpm fl ls sd bo io sc co ren : String → Option String)
    (input : String) :
    (run_demo_pipeline (earlier ++ ⟨failingPass, true⟩ :: later) input =
        (run_demo_pipeline earlier input).bind (run_demo_pipeline later)) ∧
      (run_demo_pipeline (earlier ++ ⟨failingPass, false⟩ :: later) input = none) ∧
      run_demo pre cpm fl ls sd bo io sc co failingPass ren input = none := by
  have hg : ∀ (p : String → Option String) (rest : List DemoStep) (s : String),
      run_demo_pipeline (⟨p, true⟩ :: rest) s =
        run_demo_pipeline rest ((p s).getD s) := by
    intro p rest s
    show (match run_demo_step s ⟨p, true⟩ with
      | some t => run_demo_pipeline rest t
      | none => none) = run_demo_pipeline rest ((p s).getD s)
    rw [run_demo_step_guarded]
  have hu : ∀ (rest : List DemoStep) (s : String),
      run_demo_pipeline (⟨failingPass, false⟩ :: rest) s = none := by
    intro rest s
    show (match run_demo_step s ⟨failingPass, false⟩ with
      | some t => run_demo_pipeline rest t
      | none => none) = none
    rfl
  refine ⟨?_, ?_, ?_⟩
  · rw [run_demo_pipeline_append]
    cases run_demo_pipeline earlier input with
    | none => rfl
    | some s =>
      show run_demo_pipeline (⟨failingPass, true⟩ :: later) s = run_demo_pipeline later s
      rw [hg]
      rfl
  · rw [run_demo_pipeline_append]
    cases run_demo_pipeline earlier input with
    | none => rfl
    | some s => exact hu later s
  · rw [run_demo, hg, hg, hg, hg, hg, hg, hg, hg, hg, hu]

theorem flattener_return_branch_counterexample :
    ((create_basic_blocks c2CexStmts).1.getD 1 ⟨0, "", none⟩) = ⟨2, "return x;", some 4⟩ ∧
      pyStartsWith "return x;" "return " = true ∧
      ¬ ((create_basic_blocks c2CexStmts).1.getD 1 ⟨0, "", none⟩).next = none := by
  refine ⟨by decide, by decide, by decide⟩

theorem joinCat_mem_split (v : String) (l : List String) (h : v ∈ l) :
    ∃ a b : String, joinCat (l.map (fun x => x ++ "\n")) = a ++ ((v ++ "\n") ++ b) := by
  induction l with
  | nil => cases h
  | cons x rest ih =>
    rcases List.mem_cons.mp h with h1 | h2
    · subst h1
      exact ⟨"", joinCat (rest.map (fun x => x ++ "\n")),
        by simp [joinCat, String.empty_append]⟩
    · obtain ⟨a, b, hab⟩ := ih h2
      exact ⟨(x ++ "\n") ++ a, b, by simp [joinCat, hab, String.append_assoc]⟩

theorem flattener_if_lowering_structure :
    (∀ st c tr tib fb (b : BBlock),
      b ∈ (create_blocks_step st (FStmt.ifStmt c tr tib fb)).blocks →
      b ∉ st.blocks → b.next = none →
      ∃ tId fId, b.content = ifLoweredContent c tId fId) ∧
    (∀ st c tr tib fb,
      (⟨(flushCur st).currentId + 1, branchContent tr tib "// empty true block",
        some ((flushCur st).currentId + if fb.isSome then 3 else 2)⟩ : BBlock) ∈
        (create_blocks_step st (FStmt.ifStmt c tr tib fb)).blocks) ∧
    (∀ st c tr tib fr fib,
      (⟨(flushCur st).currentId + 2, branchContent fr fib "// empty false block",
        some ((flushCur st).currentId + 3)⟩ : BBlock) ∈
        (create_blocks_step st (FStmt.ifStmt c tr tib (some (fr, fib)))).blocks) ∧
    (∀ stmts, ((stmts.foldl create_blocks_step ⟨[], [], 1, []⟩).cur).isEmpty = false →
      (create_basic_blocks stmts).1 =
        (stmts.foldl create_blocks_step ⟨[], [], 1, []⟩).blocks ++
          [⟨(stmts.foldl create_blocks_step ⟨[], [], 1, []⟩).currentId,
            joinNL (stmts.foldl create_blocks_step ⟨[], [], 1, []⟩).cur,
            if lastIsTerminal (stmts.foldl create_blocks_step ⟨[], [], 1, []⟩).cur
            then none else some 0⟩]) ∧
    (∀ pres hoisted, ∃ tail : String,
      generate_dispatcher pres hoisted =
        "\x7b\n" ++ hoistedSection hoisted ++
          ("        uint256 state = 1;\n        while (state != 0) \x7b\n" ++ tail)) ∧
    (∀ isF (b : BBlock), b.next = none →
      armCode isF b =
        "            " ++ (if isF then "if" else "else if") ++ " (state == " ++
          toString b.id ++ ") \x7b\n" ++
          pyindent (pyTrim (pydedent b.content)) "                " ++ "\n" ++
          "            \x7d\n") := by
  refine ⟨?_, ?_, ?_, ?_, ?_, ?_⟩
  · intro st c tr tib fb b hmem hnotold hnone
    simp only [create_blocks_step] at hmem
    rcases List.mem_append.mp hmem with hmem1 | hfalse
    · rcases List.mem_append.mp hmem1 with hflush | hnew
      · by_cases hc : st.cur.isEmpty
        · simp [flushCur, hc] at hflush
          exact absurd hflush hnotold
        · simp [flushCur, hc] at hflush
          rcases hflush with h1 | h2
          · exact absurd h1 hnotold
          · rw [h2] at hnone; simp at hnone
      · rcases List.mem_cons.mp hnew with h1 | h2
        · exact ⟨_, _, by rw [h1]⟩
        · simp at h2
          rw [h2] at hnone; simp at hnone
    · cases fb with
      | none => simp at hfalse
      | some p =>
        cases p with
        | mk fr fib =>
          simp at hfalse
          rw [hfalse] at hnone; simp at hnone
  · intro st c tr tib fb
    simp [create_blocks_step]
  · intro st c tr tib fr fib
    simp [create_blocks_step]
  · intro stmts h
    simp [create_basic_blocks, h]
  · intro pres hoisted
    exact ⟨armsFor true pres ++ "        \x7d\n    \x7d",
      by simp [generate_dispatcher, LOOPHDR, String.append_assoc]⟩
  · intro isF b h
    simp [armCode, h, String.append_assoc]

theorem flattener_if_lowering_structure_witness :
    (⟨1, ifLoweredContent "c" 2 3, none⟩ : BBlock) ∈
        (create_blocks_step ⟨[], [], 1, []⟩ (FStmt.ifStmt "c" "t" false none)).blocks ∧
      (⟨1, ifLoweredContent "c" 2 3, none⟩ : BBlock) ∉ ([] : List BBlock) ∧
      (∃ tId fId,
        (⟨1, ifLoweredContent "c" 2 3, none⟩ : BBlock).content = ifLoweredContent "c" tId fId) := by
  refine ⟨by decide, by decide, ?_⟩
  exact flattener_if_lowering_structure.1 ⟨[], [], 1, []⟩ "c" "t" false none
    ⟨1, ifLoweredContent "c" 2 3, none⟩ (by decide) (by decide) rfl

theorem flattener_decl_hoisting :
    (∀ st (d : VDecl) rhs,
      create_blocks_step st (FStmt.varDecl [some d] (some rhs)) =
        { st with hoisted := st.hoisted ++ [hoistLine d],
                  cur := st.cur ++ [d.name ++ " = " ++ rhs ++ ";"] }) ∧
    (∀ st (d : VDecl),
      create_blocks_step st (FStmt.varDecl [some d] none) =
        { st with hoisted := st.hoisted ++ [hoistLine d],
                  cur := st.cur ++
                    [d.name ++ " = " ++ get_default_value_for_type d.typeText ++ ";"] }) ∧
    (∀ st decls initText,
      (create_blocks_step st (FStmt.varDecl decls initText)).hoisted =
          st.hoisted ++ (decls.filterMap id).map hoistLine ∧
        (create_blocks_step st (FStmt.varDecl decls initText)).blocks = st.blocks ∧
        (create_blocks_step st (FStmt.varDecl decls initText)).currentId = st.currentId) ∧
    (∀ t, (pyStartsWith (pyTrim t) "bool" = true → get_default_value_for_type t = "false") ∧
      (pyStartsWith (pyTrim t) "bool" = false → pyStartsWith (pyTrim t) "string" = true →
        get_default_value_for_type t = "\"\"") ∧
      (pyStartsWith (pyTrim t) "bool" = false → pyStartsWith (pyTrim t) "string" = false →
        pyStartsWith (pyTrim t) "bytes" = true → get_default_value_for_type t = "\"\"") ∧
      (pyStartsWith (pyTrim t) "bool" = false → pyStartsWith (pyTrim t) "string" = false →
        pyStartsWith (pyTrim t) "bytes" = false → pyStartsWith (pyTrim t) "address" = true →
        get_default_value_for_type t = "address(0)") ∧
      (pyStartsWith (pyTrim t) "bool" = false → pyStartsWith (pyTrim t) "string" = false →
        pyStartsWith (pyTrim t) "bytes" = false → pyStartsWith (pyTrim t) "address" = false →
        get_default_value_for_type t = "0")) ∧
    (∀ pres hoisted v, v ∈ hoisted → ∃ pre mid1 mid2 : String,
      generate_dispatcher pres hoisted =
        pre ++ ((v ++ "\n") ++ (mid1 ++ (LOOPHDR ++ mid2)))) := by
  refine ⟨?_, ?_, ?_, ?_, ?_⟩
  · intro st d rhs
    simp [create_blocks_step, tupleLhs]
  · intro st d
    simp [create_blocks_step]
  · intro st decls initText
    cases initText <;> simp [create_blocks_step]
  · intro t
    refine ⟨?_, ?_, ?_, ?_, ?_⟩
    · intro h1; simp [get_default_value_for_type, h1]
    · intro h1 h2; simp [get_default_value_for_type, h1, h2]
    · intro h1 h2 h3; simp [get_default_value_for_type, h1, h2, h3]
    · intro h1 h2 h3 h4; simp [get_default_value_for_type, h1, h2, h3, h4]
    · intro h1 h2 h3 h4; simp [get_default_value_for_type, h1, h2, h3, h4]
  · intro pres hoisted v hv
    have hne : hoisted.isEmpty = false := by
      cases hoisted with
      | nil => cases hv
      | cons a l => rfl
    obtain ⟨a, b, hab⟩ := joinCat_mem_split v hoisted hv
    refine ⟨"\x7b\n" ++ ("        // --- Hoisted Local Variables ---\n" ++ a),
      b ++ "        // -------------------------------\n\n",
      armsFor true pres ++ "        \x7d\n    \x7d", ?_⟩
    simp [generate_dispatcher, hoistedSection, hne, hab, String.append_assoc]

theorem flattener_decl_hoisting_witness :
    pyStartsWith (pyTrim " bool ") "bool" = true ∧
      get_default_value_for_type " bool " = "false" :=
  ⟨by decide, (flattener_decl_hoisting.2.2.2.1 " bool ").1 (by decide)⟩

theorem flatten_step_skip (shuffle : List BBlock → List BBlock)
    (acc : List Char × Nat) (f : FFunc) (hf : skip_body f = true) :
    flatten_step shuffle acc f = acc := by
  unfold flatten_step
  unfold skip_body at hf
  cases hb : f.body with
  | none => rfl
  | some stmts =>
    rw [hb] at hf
    replace hf : (stmts.isEmpty ||
        (decide (stmts.length < 2) && !has_branching_list stmts)) = true := hf
    simp only [Bool.or_eq_true] at hf
    rcases hf with hf | hf
    · simp [hf]
    · by_cases he : stmts.isEmpty <;> simp [he, hf]

theorem mem_insertDescBy {key : α → Nat} {x a : α} {l : List α}
    (h : a ∈ insertDescBy key x l) : a = x ∨ a ∈ l := by
  induction l with
  | nil =>
    simp [insertDescBy] at h
    exact Or.inl h
  | cons y rest ih =>
    simp only [insertDescBy] at h
    by_cases hc : key y < key x
    · simp [hc] at h
      rcases h with h | h | h
      · exact Or.inl h
      · exact Or.inr (by simp [h])
      · exact Or.inr (by simp [h])
    · simp [hc] at h
      rcases h with h | h
      · exact Or.inr (by simp [h])
      · rcases ih h with h1 | h1
        · exact Or.inl h1
        · exact Or.inr (by simp [h1])

theorem mem_sortDescBy {key : α → Nat} {a : α} {l : List α}
    (h : a ∈ sortDescBy key l) : a ∈ l := by
  induction l with
  | nil => simp [sortDescBy] at h
  | cons x rest ih =>
    simp only [sortDescBy] at h
    rcases mem_insertDescBy h with h1 | h1
    · simp [h1]
    · exact List.mem_cons_of_mem _ (ih h1)

theorem foldl_flatten_step_skip (shuffle : List BBlock → List BBlock)
    (l : List FFunc) (acc : List Char × Nat) (h : ∀ f ∈ l, skip_body f = true) :
    l.foldl (flatten_step shuffle) acc = acc := by
  induction l generalizing acc with
  | nil => rfl
  | cons f rest ih =>
    rw [List.foldl_cons, flatten_step_skip shuffle acc f (h f (by simp))]
    exact ih acc (fun g hg => h g (List.mem_cons_of_mem _ hg))

theorem flatten_control_flow_skip_policy :
    (∀ shuffle acc (f : FFunc), skip_body f = true → flatten_step shuffle acc f = acc) ∧
    (∀ funcs (f : FFunc), f ∈ find_functions funcs →
      f.implemented = true ∧ f.body.isSome = true) ∧
    (∀ shuffle source funcs, (∀ f ∈ funcs, skip_flatten f = true) →
      flatten_control_flow shuffle source funcs = (source, 0)) := by
  refine ⟨?_, ?_, ?_⟩
  · intro shuffle acc f hf
    exact flatten_step_skip shuffle acc f hf
  · intro funcs f hf
    have := List.of_mem_filter hf
    simpa using this
  · intro shuffle source funcs h
    unfold flatten_control_flow
    apply foldl_flatten_step_skip
    intro f hf
    have h1 : f ∈ find_functions funcs := mem_sortDescBy hf
    have h2 : f ∈ funcs := List.mem_of_mem_filter h1
    have h3 := List.of_mem_filter h1
    have h4 := h f h2
    unfold skip_flatten at h4
    unfold skip_body
    simp only [Bool.and_eq_true] at h3
    rw [Bool.or_eq_true] at h4
    rcases h4 with h4 | h4
    · rw [h3.1] at h4; simp at h4
    · exact h4

theorem flatten_control_flow_skip_policy_witness :
    (∀ f ∈ [c8SkipFunc], skip_flatten f = true) ∧
      flatten_control_flow (fun x => x) "ab".toList [c8SkipFunc] = ("ab".toList, 0) := by
  refine ⟨?_, ?_⟩
  · decide
  · exact flatten_control_flow_skip_policy.2.2 (fun x => x) "ab".toList [c8SkipFunc] (by decide)

theorem ptsOkFrom_cons {src helperName : List Char} {lo s e : Nat} {rest : List (Nat × Nat)}
    (h : ptsOkFrom src helperName lo ((s, e) :: rest) = true) :
    lo ≤ s ∧ s < e ∧ e ≤ src.length ∧
      containsSub helperName ((src.take e).drop s) = false ∧
      ptsOkFrom src helperName e rest = true := by
  simp only [ptsOkFrom, Bool.and_eq_true, Bool.not_eq_true', decide_eq_true_eq] at h
  exact ⟨h.1.1.1.1, h.1.1.1.2, h.1.1.2, h.1.2, h.2⟩

theorem expected_rewrite_take (src pred helper : List Char) :
    ∀ (pts : List (Nat × Nat)) (lo m : Nat),
      ptsOkFrom src helper lo pts = true → m ≤ lo →
      (expected_rewrite src pred pts).take m = src.take m := by
  intro pts
  induction pts with
  | nil => intro lo m _ _; rfl
  | cons p rest ih =>
    intro lo m h hm
    obtain ⟨s, e⟩ := p
    obtain ⟨h1, h2, h3, h4, h5⟩ := ptsOkFrom_cons h
    have hs : s ≤ src.length := by omega
    have hms : m ≤ s := by omega
    simp only [expected_rewrite]
    rw [List.append_assoc, List.take_append_eq_append_take, List.length_take]
    have hlen : min s src.length = s := by omega
    rw [hlen, Nat.sub_eq_zero_of_le hms, List.take_take]
    simp [Nat.min_eq_left hms]

theorem rewrite_conditions_expected (src pred helper : List Char) :
    ∀ (pts : List (Nat × Nat)) (lo : Nat),
      ptsOkFrom src helper lo pts = true →
      rewrite_conditions src pred helper pts.reverse =
        (expected_rewrite src pred pts, pts.length) := by
  intro pts
  induction pts with
  | nil => intro lo _; rfl
  | cons p rest ih =>
    intro lo h
    obtain ⟨s, e⟩ := p
    obtain ⟨h1, h2, h3, h4, h5⟩ := ptsOkFrom_cons h
    unfold rewrite_conditions at *
    rw [List.foldl_reverse] at *
    simp only [List.foldr_cons]
    rw [ih e h5]
    have hnb : ¬ (e > src.length) := by omega
    simp only [hnb, if_false]
    rw [expected_rewrite_take src pred helper rest e s h5 (le_of_lt h2)]
    simp [h4, expected_rewrite]

theorem insertDescBy_all_lt {key : α → Nat} (x : α) :
    ∀ m : List α, (∀ y ∈ m, key x < key y) → insertDescBy key x m = m ++ [x] := by
  intro m
  induction m with
  | nil => intro _; rfl
  | cons y r ih =>
    intro h
    have hy : key x < key y := h y (by simp)
    have : ¬ (key y < key x) := by omega
    simp only [insertDescBy, this, if_false]
    rw [ih (fun z hz => h z (by simp [hz]))]
    simp

theorem sortDescBy_pairwise {key : α → Nat} :
    ∀ l : List α, l.Pairwise (fun a b => key a < key b) → sortDescBy key l = l.reverse := by
  intro l
  induction l with
  | nil => intro _; rfl
  | cons x r ih =>
    intro h
    rw [List.pairwise_cons] at h
    simp only [sortDescBy]
    rw [ih h.2, insertDescBy_all_lt x _ (fun y hy => h.1 y (List.mem_reverse.mp hy))]
    simp

theorem ptsOk_lower (src helper : List Char) :
    ∀ (pts : List (Nat × Nat)) (lo : Nat), ptsOkFrom src helper lo pts = true →
      ∀ p ∈ pts, lo ≤ p.1 := by
  intro pts
  induction pts with
  | nil => intro lo _ p hp; cases hp
  | cons q rest ih =>
    intro lo h p hp
    obtain ⟨s, e⟩ := q
    obtain ⟨h1, h2, h3, h4, h5⟩ := ptsOkFrom_cons h
    rcases List.mem_cons.mp hp with rfl | hp
    · exact h1
    · have := ih e h5 p hp
      omega

theorem ptsOk_pairwise (src helper : List Char) :
    ∀ (pts : List (Nat × Nat)) (lo : Nat), ptsOkFrom src helper lo pts = true →
      pts.Pairwise (fun a b => a.1 < b.1) := by
  intro pts
  induction pts with
  | nil => intro _ _; exact List.Pairwise.nil
  | cons q rest ih =>
    intro lo h
    obtain ⟨s, e⟩ := q
    obtain ⟨h1, h2, h3, h4, h5⟩ := ptsOkFrom_cons h
    rw [List.pairwise_cons]
    refine ⟨fun p hp => ?_, ih e h5⟩
    have := ptsOk_lower src helper rest e h5 p hp
    simp only
    omega

/-- C7 (amended): provided the parsed condition points are in ascending
document order with in-bounds, nonempty, pairwise-disjoint ranges (the AST
provider contract) and no condition text already contains the generated
helper name, the replacement loop rewrites *every* found condition `cond`
to `(cond) && <predicate>` purely additively — the output is exactly
`expected_rewrite`, which keeps every original condition text intact inside
the new conjunction and leaves all other bytes unchanged — and counts every
point; the sort of the inserter processes exactly these points in reverse
(descending) order, so `insert_opaque_predicates` produces the injected
version of that additive rewrite. -/
theorem insert_opaque_rewrites_all_conditions :
    (∀ (src pred helper : List Char) (pts : List (Nat × Nat)) (lo : Nat),
      ptsOkFrom src helper lo pts = true →
      rewrite_conditions src pred helper pts.reverse =
        (expected_rewrite src pred pts, pts.length)) ∧
    (∀ (src helper : List Char) (pts : List (Nat × Nat)) (lo : Nat),
      ptsOkFrom src helper lo pts = true →
      sortDescBy (fun q => q.1) pts = pts.reverse) ∧
    (∀ (ast : PNode) (source : List Char) (g : CpmGen),
      ptsOkFrom source g.helper_func_name.toList 0 (parse_points ast) = true →
      (parse_points ast).isEmpty = false →
      insert_opaque_predicates (some ast) source g =
        inject_components g
          (replace_word_pure false
            (expected_rewrite source (get_predicate_condition g).toList
              (parse_points ast)))) := by
  refine ⟨rewrite_conditions_expected, ?_, ?_⟩
  · intro src helper pts lo h
    exact sortDescBy_pairwise pts (ptsOk_pairwise src helper pts lo h)
  · intro ast source g hok hne
    have hpts : (find_injection_points ast).isEmpty = false := by
      unfold parse_points at hne
      cases hfi : find_injection_points ast with
      | nil => rw [hfi] at hne; simp at hne
      | cons a l => rfl
    have hsort : sortDescBy (fun q => q.1) (parse_points ast) = (parse_points ast).reverse :=
      sortDescBy_pairwise _ (ptsOk_pairwise _ _ _ _ hok)
    have hrw : rewritten_result ast source g =
        (expected_rewrite source (get_predicate_condition g).toList (parse_points ast),
          (parse_points ast).length) := by
      unfold rewritten_result
      rw [hsort]
      exact rewrite_conditions_expected source _ _ (parse_points ast) 0 hok
    have hlen : (parse_points ast).length ≠ 0 := by
      cases hpp : parse_points ast with
      | nil => rw [hpp] at hne; simp at hne
      | cons a l => simp
    simp [insert_opaque_predicates, hpts, hrw, hlen]

/-- C7 counterexample: the claim says *every* if/while condition found by
the walk is rewritten to `(cond) && <predicate>`, but a condition whose text
already contains the generated helper name is skipped
(`if self.cpm_gen.helper_func_name in original_cond_str: continue`), the
count stays `0`, and the inserter returns the source unchanged — nothing is
rewritten even though an injection point was found. -/
theorem insert_opaque_skips_helper_condition :
    find_injection_points c7Ast = [("IfStatement", 4, 32)] ∧
      (c7Source.take 36).drop 4 = "calculateCPM_1234(x) > int256(0)".toList ∧
      insert_opaque_predicates (some c7Ast) c7Source c7Gen = c7Source := by
  refine ⟨by decide, by decide, by decide⟩

/-- C10: `insert_opaque_predicates` is atomic on no-op: it returns the input
unchanged when AST generation failed, when no if/while point was found, and
when zero conditions were rewritten; and the CPM helper function and seed
state variable are injected only on the remaining path, i.e. only when at
least one condition was rewritten. -/
theorem insert_opaque_noop_atomicity :
    (∀ source g, insert_opaque_predicates none source g = source) ∧
    (∀ ast source g, (find_injection_points ast).isEmpty = true →
      insert_opaque_predicates (some ast) source g = source) ∧
    (∀ ast source g, (rewritten_result ast source g).2 = 0 →
      insert_opaque_predicates (some ast) source g = source) ∧
    (∀ ast source g, (find_injection_points ast).isEmpty = false →
      (rewritten_result ast source g).2 ≠ 0 →
      insert_opaque_predicates (some ast) source g =
        inject_components g (replace_word_pure false (rewritten_result ast source g).1)) := by
  refine ⟨?_, ?_, ?_, ?_⟩
  · intro source g; rfl
  · intro ast source g h
    simp [insert_opaque_predicates, h]
  · intro ast source g h
    by_cases hp : (find_injection_points ast).isEmpty <;>
      simp [insert_opaque_predicates, hp, h]
  · intro ast source g h1 h2
    simp [insert_opaque_predicates, h1, h2]

/-- C10 witness: a contract AST with no if/while points leaves the source
unchanged. -/
theorem insert_opaque_noop_atomicity_witness :
    (find_injection_points c10EmptyAst).isEmpty = true ∧
      insert_opaque_predicates (some c10EmptyAst) "contract C \x7b \x7d".toList c7Gen =
        "contract C \x7b \x7d".toList :=
  ⟨by decide, insert_opaque_noop_atomicity.2.1 c10EmptyAst "contract C \x7b \x7d".toList
    c7Gen (by decide)⟩

/-- C7 amended-claim witness: one in-bounds condition point on a concrete
buffer is rewritten additively. -/
theorem insert_opaque_rewrites_all_conditions_witness :
    ptsOkFrom "if (a) x;".toList "H".toList 0 [(4, 5)] = true ∧
      rewrite_conditions "if (a) x;".toList "P".toList "H".toList [(4, 5)].reverse =
        (expected_rewrite "if (a) x;".toList "P".toList [(4, 5)], 1) :=
  ⟨by decide, insert_opaque_rewrites_all_conditions.1 "if (a) x;".toList "P".toList
    "H".toList [(4, 5)] 0 (by decide)⟩

/-! Theorems for claim C6. -/
theorem replace_cons_ne (pw : Bool) (c : Char) (rest : List Char)
    (h : ∀ r4, c = 'p' → rest = 'u' :: 'r' :: 'e' :: r4 → False) :
    replace_word_pure pw (c :: rest) = c :: replace_word_pure (isWordChar c) rest := by
  rw [replace_word_pure.eq_def]
  split
  · rename_i heq
    simp at heq
  · rename_i heq
    injection heq with h1 h2
    exact (h _ h1 h2).elim
  · rename_i heq
    injection heq with h1 h2
    subst h1
    subst h2
    rfl

theorem has_cons_ne (pw : Bool) (c : Char) (X : List Char)
    (h : ∀ r4, c = 'p' → X = 'u' :: 'r' :: 'e' :: r4 → False) :
    has_word_pure pw (c :: X) = has_word_pure (isWordChar c) X := by
  rw [has_word_pure.eq_def]
  split
  · rename_i heq
    simp at heq
  · rename_i heq
    injection heq with h1 h2
    exact (h _ h1 h2).elim
  · rename_i heq
    injection heq with h1 h2
    subst h1
    subst h2
    rfl

theorem replace_shape (pw : Bool) (x : List Char) :
    (x = [] ∧ replace_word_pure pw x = []) ∨
      (∃ c r, x = c :: r ∧
        replace_word_pure pw x = c :: replace_word_pure (isWordChar c) r) ∨
      (∃ r4, x = 'p' :: 'u' :: 'r' :: 'e' :: r4 ∧
        replace_word_pure pw x = 'v' :: 'i' :: 'e' :: 'w' :: replace_word_pure true r4) := by
  induction pw, x using replace_word_pure.induct with
  | case1 _ => exact Or.inl ⟨rfl, rfl⟩
  | case2 prevW rest h ih =>
    refine Or.inr (Or.inr ⟨rest, rfl, ?_⟩)
    simp [replace_word_pure, h]
  | case3 prevW rest h ih =>
    refine Or.inr (Or.inl ⟨'p', 'u' :: 'r' :: 'e' :: rest, rfl, ?_⟩)
    simp [replace_word_pure, h]
  | case4 prevW c rest h ih =>
    exact Or.inr (Or.inl ⟨c, rest, rfl, replace_cons_ne prevW c rest h⟩)

theorem head_replace (pw : Bool) (l : List Char) :
    headIsWordChar (replace_word_pure pw l) = headIsWordChar l := by
  rcases replace_shape pw l with ⟨h1, h2⟩ | ⟨c, r, h1, h2⟩ | ⟨r4, h1, h2⟩
  · subst h1
    rw [h2]
  · subst h1
    rw [h2]
    rfl
  · subst h1
    rw [h2]
    rfl

theorem ure_of_replace (pw : Bool) (x r4 : List Char)
    (h : replace_word_pure pw x = 'u' :: 'r' :: 'e' :: r4) :
    ∃ z, x = 'u' :: 'r' :: 'e' :: z := by
  rcases replace_shape pw x with ⟨h1, h2⟩ | ⟨c, r, h1, h2⟩ | ⟨z, h1, h2⟩
  · rw [h2] at h; cases h
  · rw [h2] at h
    injection h with hc hrest
    subst hc
    rcases replace_shape (isWordChar 'u') r with ⟨g1, g2⟩ | ⟨c1, r1, g1, g2⟩ | ⟨z1, g1, g2⟩
    · rw [g2] at hrest; cases hrest
    · rw [g2] at hrest
      injection hrest with hc1 hrest1
      subst hc1
      rcases replace_shape (isWordChar 'r') r1 with ⟨k1, k2⟩ | ⟨c2, r2, k1, k2⟩ | ⟨z2, k1, k2⟩
      · rw [k2] at hrest1; cases hrest1
      · rw [k2] at hrest1
        injection hrest1 with hc2 _
        subst hc2
        exact ⟨r2, by rw [h1, g1, k1]⟩
      · rw [k2] at hrest1; cases hrest1
    · rw [g2] at hrest; cases hrest
  · rw [h2] at h; cases h

theorem replace_word_pure_clean (pw : Bool) (l : List Char) :
    has_word_pure pw (replace_word_pure pw l) = false := by
  induction pw, l using replace_word_pure.induct with
  | case1 _ => rfl
  | case2 prevW rest h ih =>
    simp only [replace_word_pure, h, if_true]
    rw [has_cons_ne _ _ _ (fun r4 hc => absurd hc (by decide)),
      has_cons_ne _ _ _ (fun r4 hc => absurd hc (by decide)),
      has_cons_ne _ _ _ (fun r4 hc => absurd hc (by decide)),
      has_cons_ne _ _ _ (fun r4 hc => absurd hc (by decide))]
    rw [show isWordChar 'w' = true from rfl]
    exact ih
  | case3 prevW rest h ih =>
    have hred : replace_word_pure prevW ('p' :: 'u' :: 'r' :: 'e' :: rest) =
        'p' :: 'u' :: 'r' :: 'e' :: replace_word_pure (isWordChar 'e') rest := by
      simp [replace_word_pure, h]
    rw [hred]
    have harm : has_word_pure prevW
        ('p' :: 'u' :: 'r' :: 'e' :: replace_word_pure (isWordChar 'e') rest) =
        ((!prevW && !headIsWordChar (replace_word_pure (isWordChar 'e') rest)) ||
          has_word_pure true ('u' :: 'r' :: 'e' :: replace_word_pure (isWordChar 'e') rest)) :=
      rfl
    rw [harm, head_replace]
    have hb : (!prevW && !headIsWordChar rest) = false := by
      revert h
      cases (!prevW && !headIsWordChar rest) <;> simp
    rw [hb]
    have hred2 : has_word_pure true
        ('u' :: 'r' :: 'e' :: replace_word_pure (isWordChar 'e') rest) =
        has_word_pure (isWordChar 'e') (replace_word_pure (isWordChar 'e') rest) := rfl
    rw [Bool.false_or, hred2]
    have ih2 : has_word_pure true (replace_word_pure true ('u' :: 'r' :: 'e' :: rest)) =
        false := ih
    rw [show replace_word_pure true ('u' :: 'r' :: 'e' :: rest) =
        'u' :: 'r' :: 'e' :: replace_word_pure (isWordChar 'e') rest from rfl] at ih2
    rw [show has_word_pure true ('u' :: 'r' :: 'e' :: replace_word_pure (isWordChar 'e') rest) =
        has_word_pure (isWordChar 'e') (replace_word_pure (isWordChar 'e') rest) from rfl] at ih2
    exact ih2
  | case4 prevW c rest h ih =>
    have hne : ∀ r4, c = 'p' →
        replace_word_pure (isWordChar c) rest = 'u' :: 'r' :: 'e' :: r4 → False := by
      intro r4 hc hrep
      obtain ⟨z, hz⟩ := ure_of_replace _ _ _ hrep
      exact h z hc hz
    rw [replace_cons_ne prevW c rest h, has_cons_ne _ _ _ hne]
    exact ih

/-- C6 (amended): whenever at least one condition was rewritten, the inserter
performs a *global* word-boundary `pure` → `view` replacement over the whole
condition-rewritten source — it does not restrict itself to functions whose
call path now passes through the helper — so afterwards no word-boundary
`pure` token remains anywhere in that buffer; the helper function and state
variable are injected only after the replacement, and the helper's code
itself still carries its ` pure ` marker (it stays side-effect free). -/
theorem pure_to_view_global :
    (∀ pw l, has_word_pure pw (replace_word_pure pw l) = false) ∧
    (∀ ast source g, (find_injection_points ast).isEmpty = false →
      (rewritten_result ast source g).2 ≠ 0 →
      insert_opaque_predicates (some ast) source g =
        inject_components g (replace_word_pure false (rewritten_result ast source g).1)) ∧
    (∀ g : CpmGen, ∃ pre post : String,
      get_helper_function_code g = pre ++ (" pure " ++ post)) := by
  refine ⟨replace_word_pure_clean, ?_, ?_⟩
  · intro ast source g h1 h2
    simp [insert_opaque_predicates, h1, h2]
  · intro g
    cases hv : g.variant
    case positive =>
      refine ⟨"\n    function " ++ g.helper_func_name ++ "(int256 val) internal",
        "returns (int256) \x7b\n        // BiAn Chaotic Map (CPM) - Positive Variant\n        return int256(uint256(keccak256(abi.encodePacked(val)))) % int256(100) + int256(20);\n    \x7d", ?_⟩
      simp only [get_helper_function_code, hv]
      rw [show ("(int256 val) internal pure returns (int256) \x7b\n        // BiAn Chaotic Map (CPM) - Positive Variant\n        return int256(uint256(keccak256(abi.encodePacked(val)))) % int256(100) + int256(20);\n    \x7d" : String) =
        "(int256 val) internal" ++ (" pure " ++ "returns (int256) \x7b\n        // BiAn Chaotic Map (CPM) - Positive Variant\n        return int256(uint256(keccak256(abi.encodePacked(val)))) % int256(100) + int256(20);\n    \x7d") from rfl]
      simp [String.append_assoc]
    case negative =>
      refine ⟨"\n    function " ++ g.helper_func_name ++ "(int256 val) internal",
        "returns (int256) \x7b\n        // BiAn Chaotic Map (CPM) - Negative Variant\n        return (int256(uint256(keccak256(abi.encodePacked(val)))) % int256(100)) - int256(150);\n    \x7d", ?_⟩
      simp only [get_helper_function_code, hv]
      rw [show ("(int256 val) internal pure returns (int256) \x7b\n        // BiAn Chaotic Map (CPM) - Negative Variant\n        return (int256(uint256(keccak256(abi.encodePacked(val)))) % int256(100)) - int256(150);\n    \x7d" : String) =
        "(int256 val) internal" ++ (" pure " ++ "returns (int256) \x7b\n        // BiAn Chaotic Map (CPM) - Negative Variant\n        return (int256(uint256(keccak256(abi.encodePacked(val)))) % int256(100)) - int256(150);\n    \x7d") from rfl]
      simp [String.append_assoc]
    case even =>
      refine ⟨"\n    function " ++ g.helper_func_name ++ "(int256 val) internal",
        "returns (int256) \x7b\n        // BiAn Chaotic Map (CPM) - Even Variant\n        return (int256(uint256(keccak256(abi.encodePacked(val)))) % int256(50)) * int256(2);\n    \x7d", ?_⟩
      simp only [get_helper_function_code, hv]
      rw [show ("(int256 val) internal pure returns (int256) \x7b\n        // BiAn Chaotic Map (CPM) - Even Variant\n        return (int256(uint256(keccak256(abi.encodePacked(val)))) % int256(50)) * int256(2);\n    \x7d" : String) =
        "(int256 val) internal" ++ (" pure " ++ "returns (int256) \x7b\n        // BiAn Chaotic Map (CPM) - Even Variant\n        return (int256(uint256(keccak256(abi.encodePacked(val)))) % int256(50)) * int256(2);\n    \x7d") from rfl]
      simp [String.append_assoc]

/-- C6 counterexample: function `g` is pure, contains no `if`/`while` and
never calls the helper — no path through the injected helper touches it —
yet after injection (triggered by the condition in `f`) the global
`\bpure\b → view` substitution has widened `g` as well, while the helper
function injected afterwards still reads `internal pure`. -/
theorem pure_to_view_counterexample :
    containsSub "function g() internal pure".toList c6Source = true ∧
      containsSub "calculateCPM".toList c6Source = false ∧
      containsSub "function g() internal view returns".toList
        (insert_opaque_predicates (some c6Ast) c6Source c6Gen) = true ∧
      containsSub "function g() internal pure".toList
        (insert_opaque_predicates (some c6Ast) c6Source c6Gen) = false ∧
      containsSub "internal pure returns (int256)".toList
        (insert_opaque_predicates (some c6Ast) c6Source c6Gen) = true := by
  refine ⟨by decide, by decide, by decide, by decide, by decide⟩

/-- C6 amended-claim witness: the concrete run factors through the global
replacement followed by injection. -/
theorem pure_to_view_global_witness :
    (find_injection_points c6Ast).isEmpty = false ∧
      (rewritten_result c6Ast c6Source c6Gen).2 ≠ 0 ∧
      insert_opaque_predicates (some c6Ast) c6Source c6Gen =
        inject_components c6Gen
          (replace_word_pure false (rewritten_result c6Ast c6Source c6Gen).1) :=
  ⟨by decide, by decide,
    pure_to_view_global.2.1 c6Ast c6Source c6Gen (by decide) (by decide)⟩

/-! Lemmas for claim C9. -/
theorem find_close_tail {c : Char} {X : List Char}
    (h : find_close (c :: X) = none) : find_close X = none := by
  by_cases hc : c = '*' ∧ X.head? = some '/'
  · simp [find_close, hc] at h
  · simp [find_close, hc] at h
    exact h

theorem find_close_cons_none {c : Char} {X : List Char}
    (h1 : ¬ (c = '*' ∧ X.head? = some '/')) (h2 : find_close X = none) :
    find_close (c :: X) = none := by
  simp [find_close, h1, h2]

theorem find_close_not_starslash {c : Char} {X : List Char}
    (h : find_close (c :: X) = none) : ¬ (c = '*' ∧ X.head? = some '/') := by
  intro hc
  simp [find_close, hc] at h

theorem find_close_drop {l : List Char} (h : find_close l = none) :
    ∀ n, find_close (l.drop n) = none := by
  induction l with
  | nil => intro n; rw [List.drop_nil]; rfl
  | cons c rest ih =>
    intro n
    cases n with
    | zero => exact h
    | succ m => exact ih (find_close_tail h) m

theorem find_close_bound : ∀ {l : List Char} {k : Nat},
    find_close l = some k → k + 2 ≤ l.length := by
  intro l
  induction l with
  | nil => intro k h; cases h
  | cons c rest ih =>
    intro k h
    by_cases hc : c = '*' ∧ rest.head? = some '/'
    · simp [find_close, hc] at h
      subst h
      obtain ⟨_, hh⟩ := hc
      cases rest with
      | nil => simp at hh
      | cons d r => simp [List.length]
    · simp [find_close, hc] at h
      obtain ⟨m, hm, hk⟩ := h
      have := ih hm
      subst hk
      simp only [List.length]
      omega

theorem match_from_nil : match_from [] = none := rfl

theorem match_from_ne_slash {c : Char} {X : List Char} (h : c ≠ '/') :
    match_from (c :: X) = none := by
  simp [match_from, h]

theorem match_from_slash_other {d : Char} {X : List Char} (h1 : d ≠ '/') (h2 : d ≠ '*') :
    match_from ('/' :: d :: X) = none := by
  simp [match_from, h1, h2]

theorem match_from_block {X : List Char} :
    match_from ('/' :: '*' :: X) = (find_close X).map (fun k => k + 4) := rfl

theorem match_from_line {X : List Char} :
    match_from ('/' :: '/' :: X) =
      some (2 + (X.takeWhile (fun c => !is_line_end c)).length) := rfl

theorem match_from_bound {l : List Char} {len : Nat} (h : match_from l = some len) :
    2 ≤ len ∧ len ≤ l.length := by
  unfold match_from at h
  by_cases h1 : l.take 2 = ['/', '*']
  · rw [if_pos h1] at h
    cases hfc : find_close (l.drop 2) with
    | none => rw [hfc] at h; cases h
    | some k =>
      rw [hfc] at h
      simp only [Option.map_some'] at h
      injection h with h
      subst h
      have hb := find_close_bound hfc
      have hl2 : 2 ≤ l.length := by
        cases l with
        | nil => simp [List.take] at h1
        | cons a r =>
          cases r with
          | nil => simp [List.take] at h1
          | cons b r2 => simp [List.length]
      have hd : (l.drop 2).length = l.length - 2 := by simp
      omega
  · rw [if_neg h1] at h
    by_cases h2 : l.take 2 = ['/', '/']
    · rw [if_pos h2] at h
      injection h with h
      subst h
      have hl2 : 2 ≤ l.length := by
        cases l with
        | nil => simp [List.take] at h2
        | cons a r =>
          cases r with
          | nil => simp [List.take] at h2
          | cons b r2 => simp [List.length]
      have ht : ((l.drop 2).takeWhile (fun c => !is_line_end c)).length ≤ l.length - 2 := by
        have h3 := List.Sublist.length_le (List.takeWhile_sublist (fun c => !is_line_end c) (l := l.drop 2))
        have hd : (l.drop 2).length = l.length - 2 := by simp
        omega
      omega
    · rw [if_neg h2] at h
      cases h

theorem spansOk_mono_lo {L : Nat} : ∀ {spans : List (Nat × Nat)} {lo lo' : Nat},
    lo' ≤ lo → spansOk L lo spans → spansOk L lo' spans := by
  intro spans
  induction spans with
  | nil => intro lo lo' _ _; trivial
  | cons p rest ih =>
    intro lo lo' hle h
    obtain ⟨s, e⟩ := p
    obtain ⟨h1, h2, h3, h4⟩ := h
    exact ⟨by omega, h2, h3, h4⟩

theorem scan_spans : ∀ (fuel : Nat) (l : List Char) (off : Nat), l.length ≤ fuel →
    spansOk (off + l.length) off (scan_comments fuel l off) := by
  intro fuel
  induction fuel with
  | zero => intro l off _; trivial
  | succ fuel ih =>
    intro l off hlen
    cases hm : match_from l with
    | some len =>
      obtain ⟨hb1, hb2⟩ := match_from_bound hm
      have heq : scan_comments (fuel + 1) l off =
          (off, off + len) :: scan_comments fuel (l.drop len) (off + len) := by
        simp [scan_comments, hm]
      rw [heq]
      have hih := ih (l.drop len) (off + len) (by simp; omega)
      have harith : off + len + (l.drop len).length = off + l.length := by
        simp
        omega
      rw [harith] at hih
      exact ⟨le_refl off, by omega, by omega, hih⟩
    | none =>
      cases l with
      | nil =>
        have heq : scan_comments (fuel + 1) [] off = [] := by
          simp [scan_comments, hm]
        rw [heq]
        trivial
      | cons c rest =>
        have heq : scan_comments (fuel + 1) (c :: rest) off =
            scan_comments fuel rest (off + 1) := by
          simp [scan_comments, hm]
        rw [heq]
        have hih := ih rest (off + 1) (by simp at hlen ⊢; omega)
        have harith : off + 1 + rest.length = off + (c :: rest).length := by
          simp [List.length]
          omega
        rw [harith] at hih
        exact spansOk_mono_lo (by omega) hih

theorem spans_lower {L : Nat} : ∀ {spans : List (Nat × Nat)} {lo : Nat},
    spansOk L lo spans → ∀ p ∈ spans, lo ≤ p.1 := by
  intro spans
  induction spans with
  | nil => intro lo _ p hp; cases hp
  | cons q rest ih =>
    intro lo h p hp
    obtain ⟨s, e⟩ := q
    obtain ⟨h1, h2, h3, h4⟩ := h
    rcases List.mem_cons.mp hp with rfl | hp
    · exact h1
    · have := ih h4 p hp
      omega

theorem spans_pairwise {L : Nat} : ∀ {spans : List (Nat × Nat)} {lo : Nat},
    spansOk L lo spans → spans.Pairwise (fun a b => a.1 < b.1) := by
  intro spans
  induction spans with
  | nil => intro _ _; exact List.Pairwise.nil
  | cons q rest ih =>
    intro lo h
    obtain ⟨s, e⟩ := q
    obtain ⟨h1, h2, h3, h4⟩ := h
    rw [List.pairwise_cons]
    refine ⟨fun p hp => ?_, ih h4⟩
    have := spans_lower h4 p hp
    simp only
    omega

theorem apply_deletes_take (src : List Char) :
    ∀ (spans : List (Nat × Nat)) (lo m : Nat),
      spansOk src.length lo spans → m ≤ lo →
      (apply_deletes src spans).take m = src.take m := by
  intro spans
  induction spans with
  | nil => intro lo m _ _; rfl
  | cons p rest ih =>
    intro lo m h hm
    obtain ⟨s, e⟩ := p
    obtain ⟨h1, h2, h3, h4⟩ := h
    have hs : s ≤ src.length := by omega
    have hms : m ≤ s := by omega
    simp only [apply_deletes]
    rw [List.take_append_eq_append_take, List.length_take]
    have hlen : min s src.length = s := by omega
    rw [hlen, Nat.sub_eq_zero_of_le hms, List.take_take]
    simp [Nat.min_eq_left hms]

theorem foldl_deletes (src : List Char) :
    ∀ (spans : List (Nat × Nat)) (lo : Nat), spansOk src.length lo spans →
      (spans.reverse).foldl (fun acc p => acc.take p.1 ++ acc.drop p.2) src =
        apply_deletes src spans := by
  intro spans
  induction spans with
  | nil => intro lo _; rfl
  | cons p rest ih =>
    intro lo h
    obtain ⟨s, e⟩ := p
    obtain ⟨h1, h2, h3, h4⟩ := h
    rw [List.foldl_reverse] at *
    simp only [List.foldr_cons]
    rw [ih e h4]
    rw [apply_deletes_take src rest e s h4 (le_of_lt h2)]
    rfl

theorem count_unescaped_quotes_zero :
    ∀ (l : List Char) (prev : Option Char), '"' ∉ l →
      count_unescaped_quotes prev l = 0 := by
  intro l
  induction l with
  | nil => intro prev _; rfl
  | cons c rest ih =>
    intro prev h
    have hc : ¬ (c = '"') := fun hcq => h (by simp [hcq])
    have hr : '"' ∉ rest := fun hq => h (List.mem_cons_of_mem _ hq)
    simp [count_unescaped_quotes, hc, ih (some c) hr]

theorem is_inside_string_false {src : List Char} (h : '"' ∉ src) (pos : Nat) :
    is_inside_string src pos = false := by
  have : '"' ∉ src.take pos := fun hq => h (List.take_subset pos src hq)
  simp [is_inside_string, count_unescaped_quotes_zero _ _ this]

theorem scan_strip_bridge : ∀ (fuel : Nat) (l pre : List Char), l.length ≤ fuel →
    apply_deletes (pre ++ l) (scan_comments fuel l pre.length) =
      pre ++ strip_comments_go fuel l := by
  intro fuel
  induction fuel with
  | zero =>
    intro l pre _
    rfl
  | succ fuel ih =>
    intro l pre hlen
    cases hm : match_from l with
    | some len =>
      obtain ⟨hb1, hb2⟩ := match_from_bound hm
      have hscan : scan_comments (fuel + 1) l pre.length =
          (pre.length, pre.length + len) ::
            scan_comments fuel (l.drop len) (pre.length + len) := by
        simp [scan_comments, hm]
      have hstrip : strip_comments_go (fuel + 1) l = strip_comments_go fuel (l.drop len) := by
        cases l with
        | nil => cases hm
        | cons c rest => simp [strip_comments_go, hm]
      rw [hscan, hstrip]
      simp only [apply_deletes]
      rw [List.take_left]
      have hpre' : (pre ++ l.take len).length = pre.length + len := by
        simp
        omega
      have hih := ih (l.drop len) (pre ++ l.take len) (by simp; omega)
      rw [List.append_assoc, List.take_append_drop] at hih
      rw [hpre'] at hih
      rw [hih]
      have hdrop : ((pre ++ l.take len) ++ strip_comments_go fuel (l.drop len)).drop
          (pre.length + len) = strip_comments_go fuel (l.drop len) := by
        rw [← hpre', List.drop_left]
      rw [hdrop]
    | none =>
      cases l with
      | nil =>
        have hscan : scan_comments (fuel + 1) ([] : List Char) pre.length = [] := by
          simp [scan_comments, hm]
        rw [hscan]
        rfl
      | cons c rest =>
        have hscan : scan_comments (fuel + 1) (c :: rest) pre.length =
            scan_comments fuel rest (pre.length + 1) := by
          simp [scan_comments, hm]
        have hstrip : strip_comments_go (fuel + 1) (c :: rest) =
            c :: strip_comments_go fuel rest := by
          simp [strip_comments_go, hm]
        rw [hscan, hstrip]
        have hpre' : (pre ++ [c]).length = pre.length + 1 := by simp
        have hih := ih rest (pre ++ [c]) (by simp at hlen ⊢; omega)
        rw [hpre'] at hih
        have hassoc : (pre ++ [c]) ++ rest = pre ++ c :: rest := by simp
        rw [hassoc] at hih
        rw [hih]
        simp

theorem remove_comments_eq_strip {src : List Char} (h : '"' ∉ src) :
    remove_comments src = strip_comments src := by
  show (sortDescBy (fun p => p.1)
      ((scan_comments src.length src 0).filter (fun p => !is_inside_string src p.1))).foldl
        (fun acc p => acc.take p.1 ++ acc.drop p.2) src = strip_comments src
  have hfilter : (scan_comments src.length src 0).filter
      (fun p => !is_inside_string src p.1) = scan_comments src.length src 0 :=
    List.filter_eq_self.mpr (fun p _ => by simp [is_inside_string_false h])
  rw [hfilter]
  have hspans : spansOk src.length 0 (scan_comments src.length src 0) := by
    have := scan_spans src.length src 0 le_rfl
    rwa [Nat.zero_add] at this
  rw [sortDescBy_pairwise _ (spans_pairwise hspans), foldl_deletes src _ 0 hspans]
  have hbridge := scan_strip_bridge src.length src [] le_rfl
  simpa [strip_comments] using hbridge

theorem strip_length : ∀ (fuel : Nat) (l : List Char),
    (strip_comments_go fuel l).length ≤ l.length := by
  intro fuel
  induction fuel with
  | zero => intro l; exact le_rfl
  | succ fuel ih =>
    intro l
    cases hm : match_from l with
    | some len =>
      obtain ⟨hb1, hb2⟩ := match_from_bound hm
      have hstrip : strip_comments_go (fuel + 1) l = strip_comments_go fuel (l.drop len) := by
        cases l with
        | nil => cases hm
        | cons c rest => simp [strip_comments_go, hm]
      rw [hstrip]
      have := ih (l.drop len)
      have hd : (l.drop len).length = l.length - len := by simp
      omega
    | none =>
      cases l with
      | nil => rw [show strip_comments_go (fuel + 1) ([] : List Char) = [] from rfl]
      | cons c rest =>
        have hstrip : strip_comments_go (fuel + 1) (c :: rest) =
            c :: strip_comments_go fuel rest := by
          simp [strip_comments_go, hm]
        rw [hstrip]
        have := ih rest
        simp only [List.length]
        omega

theorem mem_strip : ∀ (fuel : Nat) (l : List Char) (c : Char),
    c ∈ strip_comments_go fuel l → c ∈ l := by
  intro fuel
  induction fuel with
  | zero => intro l c hc; exact hc
  | succ fuel ih =>
    intro l c hc
    cases hm : match_from l with
    | some len =>
      have hstrip : strip_comments_go (fuel + 1) l = strip_comments_go fuel (l.drop len) := by
        cases l with
        | nil => cases hm
        | cons d rest => simp [strip_comments_go, hm]
      rw [hstrip] at hc
      exact List.drop_subset len l (ih _ c hc)
    | none =>
      cases l with
      | nil => rw [show strip_comments_go (fuel + 1) ([] : List Char) = [] from rfl] at hc; cases hc
      | cons d rest =>
        have hstrip : strip_comments_go (fuel + 1) (d :: rest) =
            d :: strip_comments_go fuel rest := by
          simp [strip_comments_go, hm]
        rw [hstrip] at hc
        rcases List.mem_cons.mp hc with rfl | hc
        · simp
        · exact List.mem_cons_of_mem _ (ih rest c hc)

theorem drop_takeWhile_length (p : Char → Bool) :
    ∀ l : List Char, l.drop (l.takeWhile p).length = l.dropWhile p := by
  intro l
  induction l with
  | nil => rfl
  | cons c rest ih =>
    by_cases hp : p c
    · simp [List.takeWhile_cons, List.dropWhile_cons, hp, ih]
    · simp [List.takeWhile_cons, List.dropWhile_cons, hp]

theorem dropWhile_head (p : Char → Bool) (l : List Char) :
    (l.dropWhile p).head? = none ∨
      ∃ d, (l.dropWhile p).head? = some d ∧ p d = false := by
  induction l with
  | nil => left; rfl
  | cons c rest ih =>
    by_cases hp : p c
    · simpa [List.dropWhile_cons, hp] using ih
    · right
      exact ⟨c, by simp [List.dropWhile_cons, hp], by simp [hp]⟩

/-- Head and closing-pair preservation of the fused scanner on buffers with
no `*/` pair: all matches are then line comments, so the scanner only drops
text up to a line end, and no new `*/` pair can appear. -/
theorem strip_noclose : ∀ (fuel : Nat) (l : List Char), find_close l = none →
    find_close (strip_comments_go fuel l) = none ∧
      ((strip_comments_go fuel l).head? = l.head? ∨
        (strip_comments_go fuel l).head? = some '\n' ∨
        (strip_comments_go fuel l).head? = some '\r' ∨
        strip_comments_go fuel l = []) := by
  intro fuel
  induction fuel with
  | zero => intro l h; exact ⟨h, Or.inl rfl⟩
  | succ fuel ih =>
    intro l h
    cases hm : match_from l with
    | some len =>
      cases l with
      | nil => cases hm
      | cons c rest =>
        have hstrip : strip_comments_go (fuel + 1) (c :: rest) =
            strip_comments_go fuel ((c :: rest).drop len) := by
          simp [strip_comments_go, hm]
        -- the match must be a line comment: a block match would need a close
        have hline : (c :: rest).drop len =
            ((c :: rest).drop 2).dropWhile (fun ch => !is_line_end ch) := by
          unfold match_from at hm
          by_cases h1 : (c :: rest).take 2 = ['/', '*']
          · rw [if_pos h1] at hm
            have hrest : find_close ((c :: rest).drop 2) = none := find_close_drop h 2
            rw [hrest] at hm
            cases hm
          · rw [if_neg h1] at hm
            by_cases h2 : (c :: rest).take 2 = ['/', '/']
            · rw [if_pos h2] at hm
              injection hm with hm
              subst hm
              have hdw : ((c :: rest).drop 2).drop
                  ((((c :: rest).drop 2).takeWhile (fun ch => !is_line_end ch)).length) =
                  ((c :: rest).drop 2).dropWhile (fun ch => !is_line_end ch) :=
                drop_takeWhile_length _ _
              rw [← hdw, List.drop_drop, Nat.add_comm 2]
            · rw [if_neg h2] at hm
              cases hm
        have hdropn : find_close ((c :: rest).drop len) = none := find_close_drop h len
        rw [hline] at hstrip hdropn
        obtain ⟨ih1, ih2⟩ := ih _ hdropn
        rw [hstrip]
        refine ⟨ih1, ?_⟩
        rcases ih2 with h5 | h5 | h5 | h5
        · rcases dropWhile_head (fun ch => !is_line_end ch) ((c :: rest).drop 2) with
            hD | ⟨d, hd1, hd2⟩
          · right; right; right
            exact List.head?_eq_none_iff.mp (h5.trans hD)
          · have hd : is_line_end d = true := by simpa using hd2
            simp only [is_line_end, Bool.or_eq_true, beq_iff_eq] at hd
            rcases hd with rfl | rfl
            · right; left; exact h5.trans hd1
            · right; right; left; exact h5.trans hd1
        · right; left; exact h5
        · right; right; left; exact h5
        · right; right; right; exact h5
    | none =>
      cases l with
      | nil => exact ⟨rfl, Or.inl rfl⟩
      | cons c rest =>
        have hstrip : strip_comments_go (fuel + 1) (c :: rest) =
            c :: strip_comments_go fuel rest := by
          simp [strip_comments_go, hm]
        rw [hstrip]
        have hrest : find_close rest = none := find_close_tail h
        obtain ⟨ih1, ih2⟩ := ih rest hrest
        have hnotpair : ¬ (c = '*' ∧ (strip_comments_go fuel rest).head? = some '/') := by
          rintro ⟨rfl, hhead⟩
          rcases ih2 with h5 | h5 | h5 | h5
          · rw [h5] at hhead
            exact find_close_not_starslash h ⟨rfl, hhead⟩
          · rw [h5] at hhead; cases hhead
          · rw [h5] at hhead; cases hhead
          · rw [h5] at hhead; cases hhead
        exact ⟨find_close_cons_none hnotpair ih1, Or.inl rfl⟩

theorem strip_go_nil (fuel : Nat) : strip_comments_go fuel ([] : List Char) = [] := by
  cases fuel with
  | zero => rfl
  | succ g => rfl

theorem match_from_none_strip (fuel : Nat) (c : Char) (rest : List Char)
    (h : match_from (c :: rest) = none) :
    match_from (c :: strip_comments_go fuel rest) = none := by
  by_cases hc : c = '/'
  · subst hc
    cases rest with
    | nil => rw [strip_go_nil]; exact h
    | cons d r =>
      by_cases hd : d = '*'
      · subst hd
        have hfc : find_close r = none := by
          rw [match_from_block] at h
          cases hfcr : find_close r with
          | none => rfl
          | some k => rw [hfcr] at h; cases h
        cases fuel with
        | zero => exact h
        | succ g =>
          have hm' : match_from ('*' :: r) = none := match_from_ne_slash (by decide)
          have hstrip : strip_comments_go (g + 1) ('*' :: r) =
              '*' :: strip_comments_go g r := by
            simp [strip_comments_go, hm']
          rw [hstrip, match_from_block, (strip_noclose g r hfc).1]
          rfl
      · by_cases hd2 : d = '/'
        · subst hd2; rw [match_from_line] at h; cases h
        · cases fuel with
          | zero => exact h
          | succ g =>
            have hm' : match_from (d :: r) = none := match_from_ne_slash hd2
            have hstrip : strip_comments_go (g + 1) (d :: r) =
                d :: strip_comments_go g r := by
              simp [strip_comments_go, hm']
            rw [hstrip]
            exact match_from_slash_other hd2 hd
  · exact match_from_ne_slash hc

theorem strip_idem : ∀ (fuel : Nat), ∀ (l : List Char), l.length ≤ fuel →
    ∀ (fuel2 : Nat), (strip_comments_go fuel l).length ≤ fuel2 →
    strip_comments_go fuel2 (strip_comments_go fuel l) = strip_comments_go fuel l := by
  intro fuel
  induction fuel with
  | zero =>
    intro l hl fuel2 _
    have : l = [] := List.length_eq_zero.mp (Nat.le_zero.mp hl)
    subst this
    rw [show strip_comments_go 0 ([] : List Char) = [] from rfl, strip_go_nil]
  | succ fuel ih =>
    intro l hl fuel2 h2
    cases hm : match_from l with
    | some len =>
      obtain ⟨hb1, hb2⟩ := match_from_bound hm
      have hstrip : strip_comments_go (fuel + 1) l = strip_comments_go fuel (l.drop len) := by
        cases l with
        | nil => cases hm
        | cons c rest => simp [strip_comments_go, hm]
      rw [hstrip] at h2 ⊢
      have hlen : (l.drop len).length ≤ fuel := by
        have : (l.drop len).length = l.length - len := by simp
        omega
      exact ih (l.drop len) hlen fuel2 h2
    | none =>
      cases l with
      | nil =>
        rw [strip_go_nil] at h2 ⊢
        rw [strip_go_nil]
      | cons c rest =>
        have hstrip : strip_comments_go (fuel + 1) (c :: rest) =
            c :: strip_comments_go fuel rest := by
          simp [strip_comments_go, hm]
        rw [hstrip] at h2 ⊢
        cases fuel2 with
        | zero => simp at h2
        | succ g =>
          have hmS : match_from (c :: strip_comments_go fuel rest) = none :=
            match_from_none_strip fuel c rest hm
          have hstrip2 : strip_comments_go (g + 1) (c :: strip_comments_go fuel rest) =
              c :: strip_comments_go g (strip_comments_go fuel rest) := by
            simp [strip_comments_go, hmS]
          rw [hstrip2]
          have hrl : rest.length ≤ fuel := by
            simp only [List.length] at hl; omega
          have hgl : (strip_comments_go fuel rest).length ≤ g := by
            simp only [List.length] at h2; omega
          rw [ih rest hrl g hgl]

/-- C9: comment removal is NOT idempotent in general: on the source
`// a"<newline>b // c` the double quote inside the first line comment
survives the first pass and flips the string-parity seen by the second
pass, so the second application deletes the remaining `// c` comment that
the first pass had classified as inside a string. -/
theorem remove_comments_not_idempotent :
    remove_comments (remove_comments "// a\"\nb // c".toList) ≠
      remove_comments "// a\"\nb // c".toList := by decide

/-- C9 (amended): comment removal is idempotent on every source that
contains no double-quote character: with no quotes the string-literal
detector never fires, every scanned comment span is deleted, and the
output of one pass contains no remaining comment match. -/
theorem remove_comments_idempotent_quotefree {src : List Char} (h : '"' ∉ src) :
    remove_comments (remove_comments src) = remove_comments src := by
  have h1 : remove_comments src = strip_comments src := remove_comments_eq_strip h
  have h2 : '"' ∉ remove_comments src := by
    intro hq
    rw [h1] at hq
    exact h (mem_strip src.length src _ hq)
  rw [remove_comments_eq_strip h2, h1]
  exact strip_idem src.length src le_rfl (strip_comments src).length le_rfl

/-- Concrete instantiation of the amended C9 idempotence theorem on a
quote-free source containing both a block and a line comment. -/
theorem remove_comments_idempotent_quotefree_witness :
    ('"' ∉ "a /* x */ b // c\nd".toList) ∧
      remove_comments (remove_comments "a /* x */ b // c\nd".toList) =
        remove_comments "a /* x */ b // c\nd".toList :=
  ⟨by decide, remove_comments_idempotent_quotefree (by decide)⟩
